import Mathlib

/-!
Verification of the directed Chinese-Postman solver.

The development shallowly embeds the Rust sources:
`graph.rs` (builder, graph snapshot, degrees, imbalance),
`floyd_warshall.rs` (two relaxation passes, path reconstruction),
`hungarian.rs` (imbalance matching), `hierholzer.rs` (circuit extraction)
and `cpp_solver.rs` (orchestrator, `Path`).

Weights are modelled exactly: an integer together with the IEEE special
values `+inf`, `-inf` and `NaN` that the `f64` code manipulates
(`f64::INFINITY` marks an absent edge, `f64::NEG_INFINITY` is written by
the second relaxation pass, and `NaN` can arise as `inf + (-inf)`).
The algorithms use only addition and order comparison, so any linearly
ordered additive group of finite weights gives the same behaviour;
integers keep every definition kernel-computable.  Rounding and overflow
of `f64` are outside the model.
-/

set_option maxRecDepth 100000

namespace CppSolver

/-- Exact model of the `f64` values handled by the solver: a finite
weight, the two infinities, or `NaN`. -/
inductive EF : Type
| fin (q : ℤ)
| pinf
| ninf
| nan
deriving DecidableEq, Repr

namespace EF

/-- IEEE-style addition on modelled `f64` values. -/
def add : EF → EF → EF
| fin a, fin b => fin (a + b)
| fin _, pinf => pinf
| fin _, ninf => ninf
| pinf, fin _ => pinf
| pinf, pinf => pinf
| pinf, ninf => nan
| ninf, fin _ => ninf
| ninf, pinf => nan
| ninf, ninf => ninf
| nan, _ => nan
| _, nan => nan

/-- IEEE-style strict comparison on modelled `f64` values; any comparison
with `NaN` is false. -/
def lt : EF → EF → Prop
| fin a, fin b => a < b
| fin _, pinf => True
| ninf, fin _ => True
| ninf, pinf => True
| _, _ => False

instance decLt : ∀ a b : EF, Decidable (lt a b)
| fin a, fin b => inferInstanceAs (Decidable (a < b))
| fin _, pinf => .isTrue trivial
| fin _, ninf => .isFalse id
| fin _, nan => .isFalse id
| pinf, _ => .isFalse id
| ninf, fin _ => .isTrue trivial
| ninf, pinf => .isTrue trivial
| ninf, ninf => .isFalse id
| ninf, nan => .isFalse id
| nan, _ => .isFalse id

/-- Boolean form of `lt`, used by the embedded code. -/
def ltb (a b : EF) : Bool := decide (lt a b)

/-- A value is wellformed when it is a finite rational or `+inf`; the input
weight matrices only contain such values. -/
def Wf : EF → Prop
| fin _ => True
| pinf => True
| ninf => False
| nan => False

instance decWf : ∀ a : EF, Decidable (Wf a)
| fin _ => .isTrue trivial
| pinf => .isTrue trivial
| ninf => .isFalse id
| nan => .isFalse id

theorem add_wf {a b : EF} (ha : Wf a) (hb : Wf b) : Wf (add a b) := by
  cases a <;> cases b <;> simp_all [Wf, add]

theorem lt_irrefl (a : EF) : ¬ lt a a := by
  cases a <;> simp [lt]

theorem lt_trans {a b c : EF} (h1 : lt a b) (h2 : lt b c) : lt a c := by
  cases a <;> cases b <;> cases c <;> simp_all [lt] <;> linarith

/-- On wellformed values, `lt` is trichotomous. -/
theorem lt_total {a b : EF} (ha : Wf a) (hb : Wf b) :
    lt a b ∨ a = b ∨ lt b a := by
  cases a <;> cases b <;> simp_all [Wf, lt]
  exact lt_trichotomy _ _

/-- Non-strict order: `a` is at most `b` (used only on wellformed values). -/
def le (a b : EF) : Prop := lt a b ∨ a = b

theorem le_refl (a : EF) : le a a := Or.inr rfl

theorem le_trans {a b c : EF} (h1 : le a b) (h2 : le b c) : le a c := by
  rcases h1 with h1 | rfl
  · rcases h2 with h2 | rfl
    · exact Or.inl (lt_trans h1 h2)
    · exact Or.inl h1
  · exact h2

theorem lt_of_lt_of_le {a b c : EF} (h1 : lt a b) (h2 : le b c) : lt a c := by
  rcases h2 with h2 | rfl
  · exact lt_trans h1 h2
  · exact h1

theorem lt_of_le_of_lt {a b c : EF} (h1 : le a b) (h2 : lt b c) : lt a c := by
  rcases h1 with h1 | rfl
  · exact lt_trans h1 h2
  · exact h2

theorem le_of_not_lt {a b : EF} (ha : Wf a) (hb : Wf b) (h : ¬ lt a b) :
    le b a := by
  rcases lt_total ha hb with h1 | h1 | h1
  · exact absurd h1 h
  · exact Or.inr h1.symm
  · exact Or.inl h1

theorem not_lt_of_le {a b : EF} (h : le a b) : ¬ lt b a := by
  rcases h with h | rfl
  · intro h2
    exact lt_irrefl a (lt_trans h h2)
  · exact lt_irrefl a

theorem add_assoc (a b c : EF) : add (add a b) c = add a (add b c) := by
  cases a <;> cases b <;> cases c <;> simp [add] <;> ring

theorem add_lt_add_left {b c : EF} (a : EF) (ha : Wf a) (hb : Wf b)
    (h : lt b c) : le (add a b) (add a c) := by
  cases a <;> cases b <;> cases c <;> simp_all [Wf, lt, add, le]

/-- Addition is monotone on the left argument. -/
theorem add_le_add_left {b c : EF} (a : EF) (ha : Wf a) (hb : Wf b)
    (h : le b c) : le (add a b) (add a c) := by
  rcases h with h | rfl
  · exact add_lt_add_left a ha hb h
  · exact le_refl _

theorem add_lt_add_right {b c : EF} (a : EF) (ha : Wf a) (hb : Wf b)
    (h : lt b c) : le (add b a) (add c a) := by
  cases a <;> cases b <;> cases c <;> simp_all [Wf, lt, add, le]

theorem add_le_add_right {b c : EF} (a : EF) (ha : Wf a) (hb : Wf b)
    (h : le b c) : le (add b a) (add c a) := by
  rcases h with h | rfl
  · exact add_lt_add_right a ha hb h
  · exact le_refl _

theorem add_le_add {a b c d : EF} (hwa : Wf a) (hwb : Wf b) (hwc : Wf c)
    (h1 : le a c) (h2 : le b d) : le (add a b) (add c d) := by
  exact le_trans (add_le_add_right b hwb hwa h1) (add_le_add_left c hwc hwb h2)

/-- The zero of the model. -/
def zero : EF := fin 0

theorem lt_pinf {a : EF} (ha : Wf a) (hne : a ≠ pinf) : lt a pinf := by
  cases a <;> simp_all [Wf, lt]

theorem ne_pinf_of_lt {a b : EF} (h : lt a b) (hb : b ≠ pinf) : a ≠ pinf := by
  cases a <;> cases b <;> simp_all [lt]

theorem add_ne_pinf {a b : EF} (ha : a ≠ pinf) (hb : b ≠ pinf)
    (hwa : Wf a) (hwb : Wf b) : add a b ≠ pinf := by
  cases a <;> cases b <;> simp_all [Wf, add]

end EF

/-- A square matrix of modelled `f64` values (`ndarray::Array2<f64>`). -/
def Mat (n : ℕ) : Type := Fin n → Fin n → EF

/-- A square matrix of `usize` values (the `next` table). -/
def Nxt (n : ℕ) : Type := Fin n → Fin n → ℕ

/-- Point update of a square matrix. -/
def upd2 {n : ℕ} {α : Type} (M : Fin n → Fin n → α) (i j : Fin n) (v : α) :
    Fin n → Fin n → α :=
  fun a b => if a = i ∧ b = j then v else M a b

theorem upd2_same {n : ℕ} {α : Type} (M : Fin n → Fin n → α) (i j : Fin n)
    (v : α) : upd2 M i j v i j = v := by
  simp [upd2]

theorem upd2_other {n : ℕ} {α : Type} (M : Fin n → Fin n → α) {i j a b : Fin n}
    (v : α) (h : ¬ (a = i ∧ b = j)) : upd2 M i j v a b = M a b := by
  simp [upd2, h]

theorem upd2_self {n : ℕ} {α : Type} (M : Fin n → Fin n → α) (i j : Fin n) :
    upd2 M i j (M i j) = M := by
  funext a b
  by_cases h : a = i ∧ b = j
  · rcases h with ⟨rfl, rfl⟩
    simp [upd2]
  · simp [upd2, h]

/-- Generic invariant preservation along a `List.foldl`. -/
theorem foldl_invariant {α β : Type} (f : α → β → α) (P : α → Prop)
    (l : List β) (s : α) (hstep : ∀ s b, b ∈ l → P s → P (f s b))
    (hs : P s) : P (List.foldl f s l) := by
  induction l generalizing s with
  | nil => exact hs
  | cons b l ih =>
    exact ih (f s b) (fun s' b' hb' => hstep s' b' (List.mem_cons_of_mem _ hb'))
      (hstep s b (List.mem_cons_self _ _) hs)

/-- Generic transitive relation propagation along a `List.foldl`. -/
theorem foldl_rel {α β : Type} (f : α → β → α) (R : α → α → Prop)
    (htrans : ∀ a b c, R a b → R b c → R a c)
    (hrefl : ∀ a, R a a)
    (l : List β) (s : α) (hstep : ∀ s b, R s (f s b)) :
    R s (List.foldl f s l) := by
  induction l generalizing s with
  | nil => exact hrefl s
  | cons b l ih => exact htrans _ _ _ (hstep s b) (ih (f s b))

/-- State of the first Floyd-Warshall relaxation pass
(`find_shortest_distances`): the distance matrix and the `next` table. -/
structure S1 (n : ℕ) : Type where
  D : Mat n
  N : Nxt n

/-- One iteration of the innermost loop of `find_shortest_distances`:
relax `(i, j)` through the pivot `k`. -/
def step1 {n : ℕ} (s : S1 n) (t : Fin n × Fin n × Fin n) : S1 n :=
  let k := t.1
  let i := t.2.1
  let j := t.2.2
  let d := EF.add (s.D i k) (s.D k j)
  if EF.lt d (s.D i j) then
    ⟨upd2 s.D i j d, upd2 s.N i j (s.N i k)⟩
  else s

/-- State of `find_negative_cycle`: matrices plus the
`have_negative_cycle` flag. -/
structure S2 (n : ℕ) : Type where
  D : Mat n
  N : Nxt n
  flag : Bool

/-- Model of `usize::MAX`, written into `next` by `find_negative_cycle`. -/
def usizeMax : ℕ := 2 ^ 64 - 1

/-- One iteration of the innermost loop of `find_negative_cycle`. -/
def step2 {n : ℕ} (s : S2 n) (t : Fin n × Fin n × Fin n) : S2 n :=
  let k := t.1
  let i := t.2.1
  let j := t.2.2
  let d := EF.add (s.D i k) (s.D k j)
  if EF.lt d (s.D i j) then
    ⟨upd2 s.D i j EF.ninf, upd2 s.N i j usizeMax, true⟩
  else s

/-- All loop triples `(k, i, j)` in execution order of the Rust
`for k { for i { for j { … } } }` nest. -/
def triples (n : ℕ) : List (Fin n × Fin n × Fin n) :=
  (List.finRange n).flatMap fun k =>
    (List.finRange n).flatMap fun i =>
      (List.finRange n).map fun j => (k, i, j)

/-- The triples of a single pivot round `k`. -/
def roundTriples {n : ℕ} (k : Fin n) : List (Fin n × Fin n × Fin n) :=
  (List.finRange n).flatMap fun i =>
    (List.finRange n).map fun j => (k, i, j)

theorem triples_eq_rounds (n : ℕ) :
    triples n = (List.finRange n).flatMap (fun k => roundTriples k) := rfl

/-- The initial `next` table of `FloydWarshallRunner::new`:
`j` where an edge exists, `0` otherwise. -/
def initNxt {n : ℕ} (W : Mat n) : Nxt n :=
  fun i j => if W i j ≠ EF.pinf then (j : ℕ) else 0

/-- `find_shortest_distances`, run from the raw weight matrix. -/
def pass1 {n : ℕ} (W : Mat n) : S1 n :=
  List.foldl step1 ⟨W, initNxt W⟩ (triples n)

/-- `find_negative_cycle`, run from the output of the first pass. -/
def pass2 {n : ℕ} (s : S1 n) : S2 n :=
  List.foldl step2 ⟨s.D, s.N, false⟩ (triples n)

/-- The state of a freshly constructed `FloydWarshallRunner`. -/
def fwNew {n : ℕ} (W : Mat n) : S2 n := pass2 (pass1 W)

/-- `graph_has_no_negative_cycle`. -/
def graphHasNoNegativeCycle {n : ℕ} (s : S2 n) : Bool := ! s.flag

/-- `graph_is_strongly_connected`: no entry of the distance matrix is
`+inf`. -/
def graphIsStronglyConnected {n : ℕ} (s : S2 n) : Bool :=
  decide (∀ i j : Fin n, s.D i j ≠ EF.pinf)

/-- The loop body of `shortest_path_between`, with explicit fuel.
Returns `none` when the walk runs out of fuel (the Rust loop would still
be running) or indexes `next` out of bounds (the Rust code would panic). -/
def spbGo {n : ℕ} (N : Nxt n) (t : Fin n) :
    ℕ → Fin n → List (Fin n) → Option (List (Fin n))
| 0, _, _ => none
| fuel + 1, cur, acc =>
  if cur = t then some ((cur :: acc).reverse)
  else
    if h : N cur t < n then spbGo N t fuel ⟨N cur t, h⟩ (cur :: acc)
    else none

/-- `shortest_path_between(start, end)` with the given fuel. -/
def spb {n : ℕ} (N : Nxt n) (s t : Fin n) (fuel : ℕ) :
    Option (List (Fin n)) :=
  spbGo N t fuel s []

/-- `Graph::compute_edge_counts`: one `HashMap` entry per finite weight
entry, each equal to `1` (absent pairs count `0`). -/
def computeEdgeCounts {n : ℕ} (W : Mat n) : Fin n → Fin n → ℕ :=
  fun i j => if W i j ≠ EF.pinf then 1 else 0

/-- The out-degree vector computed from a weight matrix: the number of
non-`inf` entries of each row. -/
def wOutDeg {n : ℕ} (W : Mat n) : Fin n → ℕ :=
  fun i => (Finset.univ.filter fun j => W i j ≠ EF.pinf).card

/-- The `Graph` snapshot of `graph.rs`: weight matrix, node labels, edge
counts and the cached out-degree vector. -/
structure Graph : Type where
  n : ℕ
  W : Mat n
  labels : List String
  C : Fin n → Fin n → ℕ
  outDeg : Fin n → ℕ

/-- `Graph::from_weight_matrix`. -/
def fromWeightMatrix (n : ℕ) (W : Mat n) (labelsOpt : Option (List String)) :
    Graph :=
  ⟨n, W, labelsOpt.getD ((List.range n).map toString), computeEdgeCounts W,
    wOutDeg W⟩

/-- `Graph::add_edge`: overwrite the weight entry, bump the out-degree and
the edge count. -/
def addGraphEdge (g : Graph) (f t : Fin g.n) (w : EF) : Graph :=
  { g with
    W := upd2 g.W f t w
    outDeg := fun i => if i = f then g.outDeg i + 1 else g.outDeg i
    C := fun i j => if i = f ∧ j = t then g.C i j + 1 else g.C i j }

/-- Out-degree of a node counted from the edge-count matrix. -/
def outC (g : Graph) (i : Fin g.n) : ℕ := Finset.univ.sum fun j => g.C i j

/-- In-degree of a node counted from the edge-count matrix. -/
def inC (g : Graph) (j : Fin g.n) : ℕ := Finset.univ.sum fun i => g.C i j

/-- `Graph::out_in_diff`: finite entries of the row minus finite entries of
the column. -/
def outInDiff {n : ℕ} (W : Mat n) (v : Fin n) : ℤ :=
  ((Finset.univ.filter fun j => W v j ≠ EF.pinf).card : ℤ) -
    ((Finset.univ.filter fun i => W i v ≠ EF.pinf).card : ℤ)

/-- The multiset of imbalanced nodes (`Graph::imbalanced_nodes`):
each node appears `|out - in|` times on the deficit side. -/
structure ImbalancedNodeSet (n : ℕ) : Type where
  negative : List (Fin n)
  positive : List (Fin n)

/-- `Graph::imbalanced_nodes`. -/
def imbalancedNodes (g : Graph) : ImbalancedNodeSet g.n :=
  ⟨(List.finRange g.n).flatMap fun v =>
      if outInDiff g.W v < 0 then
        List.replicate (-(outInDiff g.W v)).toNat v
      else [],
    (List.finRange g.n).flatMap fun v =>
      if 0 < outInDiff g.W v then
        List.replicate (outInDiff g.W v).toNat v
      else []⟩

/-- `ImbalancedNodeSet::is_empty`. -/
def imbalancedIsEmpty {n : ℕ} (s : ImbalancedNodeSet n) : Bool :=
  s.negative.isEmpty && s.positive.isEmpty

/-- One builder call: `add_edge` or `add_labeled_edge`. -/
inductive BCall : Type
| edge (f t : ℕ) (w : EF)
| labeled (fl tl : String) (w : EF)

/-- The `GraphBuilder` state: pending edges, the running maximum node
index, and the label-to-index map (a list whose positions are the indices,
mirroring the insertion-ordered `HashMap`); the write-only `used_labels`
set of the source carries no information and is not modelled. -/
structure Builder : Type where
  edges : List (ℕ × ℕ × EF)
  maxNode : ℕ
  labelNames : List String

/-- `GraphBuilder::new`. -/
def Builder.new : Builder := ⟨[], 0, []⟩

/-- `GraphBuilder::add_edge`. -/
def Builder.addEdge (b : Builder) (f t : ℕ) (w : EF) : Builder :=
  ⟨b.edges ++ [(f, t, w)], max (max b.maxNode f) t, b.labelNames⟩

/-- `GraphBuilder::get_or_insert_label`. -/
def Builder.getOrInsertLabel (b : Builder) (s : String) : Builder × ℕ :=
  match b.labelNames.indexOf? s with
  | some i => (b, i)
  | none => ({ b with labelNames := b.labelNames ++ [s] }, b.labelNames.length)

/-- `GraphBuilder::add_labeled_edge`. -/
def Builder.addLabeledEdge (b : Builder) (fl tl : String) (w : EF) : Builder :=
  let (b1, f) := b.getOrInsertLabel fl
  let (b2, t) := b1.getOrInsertLabel tl
  b2.addEdge f t w

/-- Apply one builder call. -/
def Builder.apply (b : Builder) : BCall → Builder
| BCall.edge f t w => b.addEdge f t w
| BCall.labeled fl tl w => b.addLabeledEdge fl tl w

/-- The builder obtained from a sequence of calls. -/
def buildFrom (calls : List BCall) : Builder :=
  calls.foldl Builder.apply Builder.new

/-- Populate the weight matrix with the pending edges; `none` models the
out-of-bounds panic of `weight_matrix[[from, to]] = weight`. -/
def writeEdges (nN : ℕ) : Mat nN → List (ℕ × ℕ × EF) → Option (Mat nN)
| M, [] => some M
| M, (f, t, w) :: rest =>
  if hf : f < nN then
    if ht : t < nN then writeEdges nN (upd2 M ⟨f, hf⟩ ⟨t, ht⟩ w) rest
    else none
  else none

/-- `GraphBuilder::build`; `none` models a panic. -/
def Builder.build (b : Builder) : Option Graph :=
  (writeEdges (if b.maxNode > 0 then b.maxNode + 1 else 0)
      (fun _ _ => EF.pinf) b.edges).map fun W =>
    fromWeightMatrix (if b.maxNode > 0 then b.maxNode + 1 else 0) W
      (if b.labelNames.isEmpty then none else some b.labelNames)

/-- The most recent weight declared for the pair `(i, j)` in an edge list. -/
def lastWeightIn (es : List (ℕ × ℕ × EF)) (i j : ℕ) : Option EF :=
  es.foldl (fun acc e => if e.1 = i ∧ e.2.1 = j then some e.2.2 else acc) none

theorem lastWeightIn_foldl (i j : ℕ) (rest : List (ℕ × ℕ × EF)) :
    ∀ acc : Option EF,
    rest.foldl (fun acc e => if e.1 = i ∧ e.2.1 = j then some e.2.2 else acc)
      acc = (lastWeightIn rest i j).elim acc some := by
  induction rest with
  | nil => intro acc; simp [lastWeightIn]
  | cons e rest ih =>
    intro acc
    have hcons : lastWeightIn (e :: rest) i j =
        (lastWeightIn rest i j).elim
          (if e.1 = i ∧ e.2.1 = j then some e.2.2 else none) some := by
      show rest.foldl _ _ = _
      exact ih _
    rw [List.foldl_cons, ih, hcons]
    cases h : lastWeightIn rest i j with
    | some w => rfl
    | none =>
      by_cases he : e.1 = i ∧ e.2.1 = j <;> simp [he]

theorem lastWeightIn_cons (i j : ℕ) (e : ℕ × ℕ × EF)
    (rest : List (ℕ × ℕ × EF)) :
    lastWeightIn (e :: rest) i j =
      (lastWeightIn rest i j).elim
        (if e.1 = i ∧ e.2.1 = j then some e.2.2 else none) some := by
  have h := lastWeightIn_foldl i j rest
    (if e.1 = i ∧ e.2.1 = j then some e.2.2 else none)
  simp only [lastWeightIn, List.foldl_cons]
  exact h

theorem writeEdges_eq {nN : ℕ} (es : List (ℕ × ℕ × EF)) :
    ∀ (M M' : Mat nN), writeEdges nN M es = some M' →
    ∀ i j : Fin nN,
      M' i j = (lastWeightIn es (i : ℕ) (j : ℕ)).getD (M i j) := by
  induction es with
  | nil =>
    intro M M' h i j
    simp [writeEdges] at h
    simp [lastWeightIn, h]
  | cons e rest ih =>
    intro M M' h i j
    rcases e with ⟨f, t, w⟩
    simp only [writeEdges] at h
    by_cases hf : f < nN
    · by_cases ht : t < nN
      · simp only [hf, dif_pos, ht] at h
        have := ih _ M' h i j
        rw [this, lastWeightIn_cons]
        cases hcase : lastWeightIn rest (i : ℕ) (j : ℕ) with
        | some w' => simp
        | none =>
          simp only [Option.elim, Option.getD_none]
          by_cases hm : f = (i : ℕ) ∧ t = (j : ℕ)
          · rw [if_pos hm]
            have hie : i = (⟨f, hf⟩ : Fin nN) := Fin.ext (by simp [hm.1])
            have hje : j = (⟨t, ht⟩ : Fin nN) := Fin.ext (by simp [hm.2])
            rw [hie, hje, upd2_same]
            simp
          · rw [if_neg hm]
            simp only [Option.getD_none]
            exact upd2_other M w (fun hc => hm ⟨by simp [hc.1], by simp [hc.2]⟩)
      · simp [hf, ht] at h
    · simp [hf] at h

theorem build_W {b : Builder} {g : Graph} (hb : b.build = some g) :
    ∀ i j : Fin g.n, g.W i j = (lastWeightIn b.edges (i : ℕ) (j : ℕ)).getD EF.pinf := by
  intro i j
  unfold Builder.build at hb
  rcases hW : writeEdges (if b.maxNode > 0 then b.maxNode + 1 else 0)
      (fun _ _ => EF.pinf) b.edges with _ | W'
  · rw [hW] at hb; simp at hb
  · rw [hW] at hb
    simp only [Option.map_some'] at hb
    obtain rfl := Option.some.inj hb
    exact writeEdges_eq b.edges _ W' hW i j

theorem build_C {b : Builder} {g : Graph} (hb : b.build = some g) :
    ∀ i j : Fin g.n, g.C i j = if g.W i j ≠ EF.pinf then 1 else 0 := by
  intro i j
  unfold Builder.build at hb
  rcases hW : writeEdges (if b.maxNode > 0 then b.maxNode + 1 else 0)
      (fun _ _ => EF.pinf) b.edges with _ | W'
  · rw [hW] at hb; simp at hb
  · rw [hW] at hb
    simp only [Option.map_some'] at hb
    obtain rfl := Option.some.inj hb
    simp [fromWeightMatrix, computeEdgeCounts]

theorem lastWeightIn_mem (es : List (ℕ × ℕ × EF)) (i j : ℕ) (w : EF)
    (h : lastWeightIn es i j = some w) : ∃ e ∈ es, e.2.2 = w := by
  induction es with
  | nil => simp [lastWeightIn] at h
  | cons e rest ih =>
    rw [lastWeightIn_cons] at h
    cases hcase : lastWeightIn rest i j with
    | some w' =>
      rw [hcase] at h
      simp only [Option.elim] at h
      obtain rfl : w' = w := by injection h
      obtain ⟨e', he', hw'⟩ := ih hcase
      exact ⟨e', List.mem_cons_of_mem _ he', hw'⟩
    | none =>
      rw [hcase] at h
      simp only [Option.elim] at h
      by_cases hm : e.1 = i ∧ e.2.1 = j
      · rw [if_pos hm] at h
        obtain rfl : e.2.2 = w := by injection h
        exact ⟨e, List.mem_cons_self _ _, rfl⟩
      · rw [if_neg hm] at h
        exact absurd h (by simp)

/-- A placeholder graph used only as a default for `Option.getD`. -/
def emptyGraph : Graph :=
  ⟨0, fun i _ => i.elim0, [], fun i _ => i.elim0, fun i => i.elim0⟩

/-- Edge-count entry of the graph built from a call sequence;
`none` when the build panics or an index is out of range. -/
def builtCEntry (calls : List BCall) (i j : ℕ) : Option ℕ :=
  (buildFrom calls).build.bind fun g =>
    if hi : i < g.n then
      if hj : j < g.n then some (g.C ⟨i, hi⟩ ⟨j, hj⟩) else none
    else none

/-- Weight-matrix entry of the graph built from a call sequence. -/
def builtWEntry (calls : List BCall) (i j : ℕ) : Option EF :=
  (buildFrom calls).build.bind fun g =>
    if hi : i < g.n then
      if hj : j < g.n then some (g.W ⟨i, hi⟩ ⟨j, hj⟩) else none
    else none

/-- The parallel-edge call sequence: `(0, 1)` declared twice with
weights `5` and then `7`. -/
def parallelCalls : List BCall :=
  [BCall.edge 0 1 (EF.fin 5), BCall.edge 0 1 (EF.fin 7)]

/-- C5 counterexample: after declaring the `(0, 1)` edge twice, the built
edge-count entry is `1`, not the declaration count `2` the claim requires
(the weight entry does keep the last declared weight). -/
theorem build_parallel_edge_count_collapses :
    builtCEntry parallelCalls 0 1 = some 1 ∧
      builtCEntry parallelCalls 0 1 ≠ some 2 ∧
      builtWEntry parallelCalls 0 1 = some (EF.fin 7) := by
  refine ⟨by decide, by decide, by decide⟩

/-- C5 (amended): after a successful `build` from finite-weight
declarations, a weight entry holds the **last** declared weight of its
pair (`+inf` when the pair was never declared), while an edge-count entry
is `1` when the pair was declared at least once and `0` otherwise —
parallel declarations collapse, because `compute_edge_counts` re-derives
the counts from the weight matrix. -/
theorem build_weight_last_and_count_indicator (b : Builder) (g : Graph)
    (hb : b.build = some g)
    (hfin : ∀ e ∈ b.edges, e.2.2 ≠ EF.pinf) :
    ∀ i j : Fin g.n,
      g.W i j = (lastWeightIn b.edges (i : ℕ) (j : ℕ)).getD EF.pinf ∧
      g.C i j = (if lastWeightIn b.edges (i : ℕ) (j : ℕ) = none then 0 else 1) := by
  intro i j
  refine ⟨build_W hb i j, ?_⟩
  rw [build_C hb i j, build_W hb i j]
  cases hcase : lastWeightIn b.edges (i : ℕ) (j : ℕ) with
  | none => simp
  | some w =>
    obtain ⟨e, he, hw⟩ := lastWeightIn_mem _ _ _ _ hcase
    have : w ≠ EF.pinf := hw ▸ hfin e he
    simp [this]

/-- The graph built from the parallel-edge calls (used by the C5 witness). -/
def parallelGraph : Graph := ((buildFrom parallelCalls).build).getD emptyGraph

/-- Witness for the amended C5 theorem at the parallel-edge input. -/
theorem build_weight_last_and_count_indicator_witness :
    (buildFrom parallelCalls).build = some parallelGraph ∧
      ((parallelGraph.W ⟨0, by decide⟩ ⟨1, by decide⟩ =
          (lastWeightIn (buildFrom parallelCalls).edges 0 1).getD EF.pinf) ∧
        parallelGraph.C ⟨0, by decide⟩ ⟨1, by decide⟩ =
          (if lastWeightIn (buildFrom parallelCalls).edges 0 1 = none
            then 0 else 1)) := by
  refine ⟨rfl, ?_⟩
  exact build_weight_last_and_count_indicator (buildFrom parallelCalls)
    parallelGraph rfl (by decide) ⟨0, by decide⟩ ⟨1, by decide⟩

/-- C6: `build` panics (indexes a `0 × 0` matrix out of bounds) on the
single self-loop `(0, 0)`, because `max_node = 0` makes it allocate zero
nodes; the claim that the builder is total fails at this input. -/
theorem build_self_loop_at_zero_panics :
    (buildFrom [BCall.edge 0 0 (EF.fin 1)]).build = none := rfl

theorem spbGo_stuck {n : ℕ} (N : Nxt n) (t : Fin n) (c : Fin n)
    (hne : c ≠ t) (hfix : N c t = (c : ℕ)) :
    ∀ fuel acc, spbGo N t fuel c acc = none := by
  intro fuel
  induction fuel with
  | zero => intro acc; rfl
  | succ fuel ih =>
    intro acc
    have hlt : N c t < n := hfix ▸ c.isLt
    simp [spbGo, hne, hlt]
    have hc : (⟨N c t, hlt⟩ : Fin n) = c := by
      apply Fin.ext
      simp [hfix]
    rw [hc]
    exact ih _

/-- Insert-or-replace into an association list keyed on the first
component: the model of `HashMap::insert`. -/
def mapInsert {α β : Type} [DecidableEq α] :
    List (α × β) → α → β → List (α × β)
| [], k, v => [(k, v)]
| (k', v') :: rest, k, v =>
  if k' = k then (k', v) :: rest else (k', v') :: mapInsert rest k v

/-- First minimum of a list of modelled floats (`ndarray`'s `min`),
`pinf` on an empty list. -/
def listMin (l : List EF) : EF :=
  l.foldl (fun acc x => if EF.lt x acc then x else acc) EF.pinf

/-- Index of the first minimum of a list (`ndarray`'s `argmin`). -/
def listArgmin (l : List EF) : ℕ :=
  (l.foldl
    (fun acc x =>
      if EF.lt x acc.2.2 then (acc.1 + 1, acc.1, x) else (acc.1 + 1, acc.2.1, acc.2.2))
    ((0 : ℕ), (0 : ℕ), EF.pinf)).2.1

/-- All injective row-to-column assignments of `p` rows into `Fin q`
columns, as lists of length `p` with pairwise-distinct entries. -/
def injSeqs (q : ℕ) : ℕ → List (List (Fin q))
| 0 => [[]]
| p + 1 =>
  (injSeqs q p).flatMap fun l =>
    ((List.finRange q).filter fun c => decide (c ∉ l)).map fun c => l ++ [c]

/-- Total cost of an assignment against a cost-row list. -/
def assignCost (rows : List (List EF)) (assign : List ℕ) : EF :=
  ((rows.zip assign).map fun rc => (rc.1.getD rc.2 EF.pinf)).foldl EF.add EF.zero

/-- Keep the first element of the list whose cost is minimal. -/
def pickMinBy {α : Type} (cost : α → EF) : List α → Option α
| [] => none
| x :: rest =>
  match pickMinBy cost rest with
  | none => some x
  | some y => if EF.lt (cost y) (cost x) then some y else some x

/-- Model of the external `pathfinding::kuhn_munkres::kuhn_munkres_min`
dependency (its source is not in this repository): a minimum-total-cost
injective assignment of every row to a distinct column, with a
deterministic first-found tie break. -/
def kuhnMunkresMin (q : ℕ) (rows : List (List EF)) : List (Fin q) :=
  (pickMinBy (fun a => assignCost rows (a.map Fin.val)) (injSeqs q rows.length)).getD []

/-- `hungarian::greedy_matching`: while there are more deficit rows than
surplus columns, repeatedly commit the row whose minimum cost is smallest
to its argmin column and delete it.  (The `BinaryHeap` pop order among
rows with equal minima is unspecified in the source; the model takes the
smallest row index first.  The branch is unreachable from the solver,
where both sides always have equal size.) -/
def greedyRows (cost : List (List EF)) (excess : ℕ) : List ℕ :=
  ((List.range cost.length).mergeSort fun a b =>
    EF.ltb (listMin ((cost.getD a []))) (listMin (cost.getD b [])) ||
      (decide (listMin (cost.getD a []) = listMin (cost.getD b [])) && decide (a ≤ b))).take
    excess

/-- `hungarian::best_match`: build the deficit-by-surplus cost matrix from
the shortest distances, greedily prematch when the deficit side is larger,
solve the residual square assignment with Kuhn-Munkres, and collect the
pairs into a map keyed by deficit node. -/
def bestMatch {n : ℕ} (imb : ImbalancedNodeSet n) (D : Mat n) :
    List (ℕ × ℕ) :=
  let cost : List (List EF) := imb.negative.map fun u => imb.positive.map fun v => D u v
  let negN : List ℕ := imb.negative.map fun x => (x : ℕ)
  let posN : List ℕ := imb.positive.map fun x => (x : ℕ)
  let excess := negN.length - posN.length
  let gr := if negN.length > posN.length then greedyRows cost excess else []
  let matching0 : List (ℕ × ℕ) :=
    gr.foldl
      (fun m r =>
        mapInsert m (negN.getD r 0) (posN.getD (listArgmin (cost.getD r [])) 0))
      []
  let negRest := (List.range negN.length).filter fun r => decide (r ∉ gr)
  let costRest := negRest.map fun r => cost.getD r []
  let assign := kuhnMunkresMin posN.length costRest
  (negRest.zip assign).foldl
    (fun m ra => mapInsert m (negN.getD ra.1 0) (posN.getD (ra.2 : ℕ) 0))
    matching0

/-- A successor-list order oracle: the (unspecified) iteration order of the
`edge_counts` `HashMap` when `Graph::edge_set` lays out, for each source
node, one successor entry per edge multiplicity. -/
def Ord : Type := ℕ → List ℕ

/-- The oracle is consistent with a graph when node `i`'s successor list
holds each target `j` exactly `C[i][j]` times (and nothing else). -/
def ordWf (g : Graph) (ord : Ord) : Prop :=
  ∀ i : Fin g.n,
    (∀ x ∈ ord (i : ℕ), x < g.n) ∧
      ∀ j : Fin g.n, (ord (i : ℕ)).count (j : ℕ) = g.C i j

instance decOrdWf (g : Graph) (ord : Ord) : Decidable (ordWf g ord) :=
  inferInstanceAs (Decidable (∀ i : Fin g.n,
    (∀ x ∈ ord (i : ℕ), x < g.n) ∧
      ∀ j : Fin g.n, (ord (i : ℕ)).count (j : ℕ) = g.C i j))

/-- One canonical realisation of the oracle: successors listed in
ascending target order. -/
def canonOrd (g : Graph) : Ord := fun i =>
  if hi : i < g.n then
    (List.finRange g.n).flatMap fun j =>
      List.replicate (g.C ⟨i, hi⟩ j) ((j : Fin g.n) : ℕ)
  else []

/-- Turn an untyped successor list into `Fin` form; `none` if any entry is
out of range (an index panic in the Rust code). -/
def toFinList (n : ℕ) (l : List ℕ) : Option (List (Fin n)) :=
  l.foldr
    (fun x acc => acc.bind fun r =>
      if h : x < n then some (⟨x, h⟩ :: r) else none)
    (some [])

/-- `HierholzerRunner::is_eulerian`: compares each successor-list length
with the cached out-degree (and therefore never inspects in-degrees). -/
def isEulerianChk (g : Graph) (ord : Ord) : Bool :=
  decide (∀ i : Fin g.n, (ord (i : ℕ)).length = g.outDeg i)

/-- The loop of `HierholzerRunner::find_path`, with fuel.  The stack head
is the top; a node with remaining out-degree pops the last entry of its
successor list and pushes it, otherwise the node is popped and prepended
to the path.  `none` models an `unwrap` panic or a diverging loop. -/
def findPathGo {n : ℕ} :
    ℕ → (Fin n → List (Fin n)) → (Fin n → ℕ) → List (Fin n) →
      List (Fin n) → Option (List (Fin n))
| _, _, _, [], path => some path
| 0, _, _, _ :: _, _ => none
| fuel + 1, edges, outs, node :: rest, path =>
  if outs node > 0 then
    match (edges node).getLast? with
    | none => none
    | some nxt =>
      findPathGo fuel
        (fun v => if v = node then (edges node).dropLast else edges v)
        (fun v => if v = node then outs node - 1 else outs v)
        (nxt :: node :: rest) path
  else findPathGo fuel edges outs rest (node :: path)

/-- Fuel sufficient for `find_path`: the loop measure
`2 * (total remaining out-degree) + stack length`. -/
def hierFuel (g : Graph) : ℕ :=
  2 * (Finset.univ.sum fun v => g.outDeg v) + 1

/-- `HierholzerRunner::run`: panic (`none`) unless `is_eulerian`, then run
the iterative depth-first search from node `0`. -/
def hierRun (g : Graph) (ord : Ord) : Option (List (Fin g.n)) :=
  if isEulerianChk g ord then
    if h0 : 0 < g.n then
      match (List.finRange g.n).mapM (fun i => toFinList g.n (ord i.val)) with
      | none => none
      | some ls =>
        findPathGo (hierFuel g) (fun v => ls.getD (v : ℕ) []) g.outDeg
          [⟨0, h0⟩] []
    else none
  else none

/-- The `Path` value returned by the solver: node sequence, total cost and
the node labels used for display. -/
structure PathR : Type where
  nodes : List ℕ
  cost : EF
  labels : List String
deriving DecidableEq

/-- `Path::new`: the cost is the sum of the weight-matrix entries over
consecutive node pairs of the walk (a fold of `f64` addition from `0.0`). -/
def pathCost {n : ℕ} (W : Mat n) (l : List (Fin n)) : EF :=
  (l.zip l.tail).foldl (fun acc p => EF.add acc (W p.1 p.2)) EF.zero

/-- `Path::new`. -/
def mkPath {n : ℕ} (W : Mat n) (l : List (Fin n)) (labels : List String) :
    PathR :=
  ⟨l.map Fin.val, pathCost W l, labels⟩

/-- The `CppSolver` state: the owned graph and the Floyd-Warshall tables
computed at construction time (the Hierholzer runner holds no state that
outlives `solve`, so it is not modelled as a field). -/
structure Solver : Type where
  graph : Graph
  fw : S2 graph.n

/-- `CppSolver::new`. -/
def newSolver (g : Graph) : Solver := ⟨g, fwNew g.W⟩

/-- `CppSolver::solvable`. -/
def solvable (s : Solver) : Bool :=
  graphIsStronglyConnected s.fw && graphHasNoNegativeCycle s.fw

/-- A graph whose node count is pinned to `n`; balancing preserves the
node count, so the whole balancing fold lives at one `n`. -/
def GraphAt (n : ℕ) : Type := {g : Graph // g.n = n}

/-- Duplicate the edges of one reconstructed shortest path:
`graph.add_edge(prev, node, W[prev][node])` for each consecutive pair. -/
def addPathEdges {n : ℕ} : GraphAt n → List (Fin n) → GraphAt n
| gp, [] => gp
| gp, [_] => gp
| gp, a :: b :: rest =>
  addPathEdges
    ⟨addGraphEdge gp.val (Fin.cast gp.property.symm a)
        (Fin.cast gp.property.symm b)
        (gp.val.W (Fin.cast gp.property.symm a) (Fin.cast gp.property.symm b)),
      gp.property⟩
    (b :: rest)

/-- `CppSolver::balance_node`.  For every matched pair, reconstruct the
shortest path with `shortest_path_between` and duplicate its edges.
`none` models a panic (an out-of-range matched node) or a diverging
reconstruction walk: the fuel `n + 1` covers every terminating
reconstruction the solver can reach, which visits pairwise-distinct
nodes. -/
def balanceNode (s : Solver) : Option Solver :=
  let imb := imbalancedNodes s.graph
  if imbalancedIsEmpty imb then some s
  else
    let res : Option (GraphAt s.graph.n) :=
      (bestMatch imb s.fw.D).foldl
        (fun acc fromTo =>
          acc.bind fun gp =>
            if hf : fromTo.1 < s.graph.n then
              if ht : fromTo.2 < s.graph.n then
                match spb s.fw.N ⟨fromTo.1, hf⟩ ⟨fromTo.2, ht⟩
                    (s.graph.n + 1) with
                | none => none
                | some pathL => some (addPathEdges gp pathL)
              else none
            else none)
        (some ⟨s.graph, rfl⟩)
    res.map fun gp => ⟨gp.val, gp.property.symm ▸ s.fw⟩

/-- The observable outcome of `CppSolver::solve`: the "not solvable"
rejection, a returned walk, or a crash/divergence (which the Rust
function surfaces as a panic or a hang, never as a return value). -/
inductive SolveResult : Type
| noSolution
| walk (p : PathR)
| crash
deriving DecidableEq

/-- `CppSolver::solve`, together with the final solver state (the Rust
method mutates `self`). -/
def solveS (s : Solver) (ord : Ord) : SolveResult × Solver :=
  if ¬ solvable s then (SolveResult.noSolution, s)
  else
    match balanceNode s with
    | none => (SolveResult.crash, s)
    | some s1 =>
      match hierRun s1.graph ord with
      | none => (SolveResult.crash, s1)
      | some pathL =>
        (SolveResult.walk (mkPath s1.graph.W pathL s1.graph.labels), s1)

/-- The node sequence of a walk outcome. -/
def resNodes : SolveResult → Option (List ℕ)
| SolveResult.walk p => some p.nodes
| _ => none

/-- The cost of a walk outcome. -/
def resCost : SolveResult → Option EF
| SolveResult.walk p => some p.cost
| _ => none

/-- `solve` answers "not solvable" exactly when the gate fails; every
post-gate outcome is a walk or a crash. -/
theorem solveS_noSolution_iff (s : Solver) (ord : Ord) :
    (solveS s ord).1 = SolveResult.noSolution ↔ solvable s = false := by
  unfold solveS
  cases hsv : solvable s with
  | false => simp [hsv]
  | true =>
    simp only [hsv, Bool.true_eq_false, iff_false]
    cases hb : balanceNode s with
    | none => simp
    | some s1 =>
      cases hr : hierRun s1.graph ord <;> simp [hr]

/-- C8: when `solve` rejects the instance, the solver's graph is exactly
the one it started with — the gate is checked before any mutation. -/
theorem solve_failure_leaves_graph_unchanged (s : Solver) (ord : Ord)
    (h : (solveS s ord).1 = SolveResult.noSolution) :
    (solveS s ord).2.graph = s.graph := by
  have hsv : solvable s = false := (solveS_noSolution_iff s ord).mp h
  unfold solveS
  simp [hsv]

/-- The unsolvable two-edge graph `(0,1,10), (1,2,-20)` of the repository's
own test. -/
def unsolvableG : Graph :=
  ((buildFrom [BCall.edge 0 1 (EF.fin 10),
    BCall.edge 1 2 (EF.fin (-20))]).build).getD emptyGraph

/-- Witness for C8 at the unsolvable test graph. -/
theorem solve_failure_leaves_graph_unchanged_witness :
    (solveS (newSolver unsolvableG) (canonOrd unsolvableG)).1 =
        SolveResult.noSolution ∧
      (solveS (newSolver unsolvableG) (canonOrd unsolvableG)).2.graph =
        unsolvableG := by
  constructor
  · decide
  · exact solve_failure_leaves_graph_unchanged (newSolver unsolvableG)
      (canonOrd unsolvableG) (by decide)

/-- The one-edge graph `(0, 1)`, which is not Eulerian. -/
def oneEdgeG : Graph :=
  ((buildFrom [BCall.edge 0 1 (EF.fin 1)]).build).getD emptyGraph

/-- C9: on the non-Eulerian one-edge graph, `HierholzerRunner::run` does
not abort: `is_eulerian` compares the successor-list lengths against the
cached out-degrees (two copies of the same quantity), accepts the graph,
and `run` emits the walk `[0, 1]`. -/
theorem hierholzer_accepts_non_eulerian_graph :
    isEulerianChk oneEdgeG (canonOrd oneEdgeG) = true ∧
      (hierRun oneEdgeG (canonOrd oneEdgeG)).map (List.map Fin.val) =
        some [0, 1] ∧
      outC oneEdgeG ⟨0, by decide⟩ = 1 ∧ inC oneEdgeG ⟨0, by decide⟩ = 0 := by
  refine ⟨by decide, by decide, by decide, by decide⟩

/-- The balanced figure-eight graph: two cycles `0 ↔ 1` and `0 ↔ 2`
through node `0`. -/
def figEightG : Graph :=
  ((buildFrom [BCall.edge 0 1 (EF.fin 1), BCall.edge 1 0 (EF.fin 1),
    BCall.edge 0 2 (EF.fin 5), BCall.edge 2 0 (EF.fin 5)]).build).getD
    emptyGraph

/-- One `HashMap` iteration order of the figure-eight successor lists. -/
def figOrdA : Ord := fun i =>
  if i = 0 then [1, 2] else if i = 1 then [0] else if i = 2 then [0] else []

/-- The other iteration order: node `0`'s successors swapped. -/
def figOrdB : Ord := fun i =>
  if i = 0 then [2, 1] else if i = 1 then [0] else if i = 2 then [0] else []

/-- C10 counterexample: on two identically-built figure-eight graphs, two
`solve` invocations whose (unspecified) successor-list iteration orders
differ return different walk node sequences, refuting the claim that two
invocations always yield identical results. -/
theorem solve_walk_depends_on_hashmap_order :
    ordWf figEightG figOrdA ∧ ordWf figEightG figOrdB ∧
      resNodes (solveS (newSolver figEightG) figOrdA).1 =
        some [0, 2, 0, 1, 0] ∧
      resNodes (solveS (newSolver figEightG) figOrdB).1 =
        some [0, 1, 0, 2, 0] ∧
      resNodes (solveS (newSolver figEightG) figOrdA).1 ≠
        resNodes (solveS (newSolver figEightG) figOrdB).1 := by
  refine ⟨by decide, by decide, by decide, by decide, by decide⟩

/-- C10 (amended): builder-call determinism holds up to the `HashMap`
successor order: identically-built graphs are equal, the
solvable/unsolvable outcome does not depend on the iteration order, and
runs with coinciding iteration orders return identical results. -/
theorem solve_deterministic_up_to_order (calls : List BCall)
    (g1 g2 : Graph) (h1 : (buildFrom calls).build = some g1)
    (h2 : (buildFrom calls).build = some g2) (ord1 ord2 : Ord) :
    ((solveS (newSolver g1) ord1).1 = SolveResult.noSolution ↔
        (solveS (newSolver g2) ord2).1 = SolveResult.noSolution) ∧
      (ord1 = ord2 → solveS (newSolver g1) ord1 = solveS (newSolver g2) ord2) := by
  have hg : g1 = g2 := by
    have := h1.symm.trans h2
    exact Option.some.inj this
  subst hg
  constructor
  · rw [solveS_noSolution_iff, solveS_noSolution_iff]
  · intro h
    rw [h]

/-- The balanced two-cycle `(0,1,1), (1,0,1)` of the repository's tests. -/
def twoCycleG : Graph :=
  ((buildFrom [BCall.edge 0 1 (EF.fin 1), BCall.edge 1 0 (EF.fin 1)]).build).getD
    emptyGraph

/-- Witness for the amended C10 theorem at the two-cycle graph. -/
theorem solve_deterministic_up_to_order_witness :
    ((solveS (newSolver twoCycleG) (canonOrd twoCycleG)).1 =
          SolveResult.noSolution ↔
        (solveS (newSolver twoCycleG) (canonOrd twoCycleG)).1 =
          SolveResult.noSolution) ∧
      (canonOrd twoCycleG = canonOrd twoCycleG →
        solveS (newSolver twoCycleG) (canonOrd twoCycleG) =
          solveS (newSolver twoCycleG) (canonOrd twoCycleG)) :=
  solve_deterministic_up_to_order
    [BCall.edge 0 1 (EF.fin 1), BCall.edge 1 0 (EF.fin 1)]
    twoCycleG twoCycleG rfl rfl (canonOrd twoCycleG) (canonOrd twoCycleG)

/-- A directed walk from `i` to `j` whose intermediate vertices are
exactly the list `l`: every consecutive pair is an edge (a non-`inf`
weight entry). -/
inductive IsWalk {n : ℕ} (W : Mat n) : Fin n → Fin n → List (Fin n) → Prop
| single {i j : Fin n} : W i j ≠ EF.pinf → IsWalk W i j []
| cons {i j x : Fin n} {l : List (Fin n)} :
    W i x ≠ EF.pinf → IsWalk W x j l → IsWalk W i j (x :: l)

/-- The weight of the walk from `i` to `j` through the intermediate
list `l`. -/
def wWeight {n : ℕ} (W : Mat n) : Fin n → Fin n → List (Fin n) → EF
| i, j, [] => W i j
| i, j, x :: l => EF.add (W i x) (wWeight W x j l)

/-- Every entry of a matrix is wellformed (finite or `+inf`). -/
def MatWf {n : ℕ} (W : Mat n) : Prop := ∀ i j, EF.Wf (W i j)

instance decMatWf {n : ℕ} (W : Mat n) : Decidable (MatWf W) :=
  inferInstanceAs (Decidable (∀ i j, EF.Wf (W i j)))

/-- The graph is strongly connected: a walk joins every ordered pair of
distinct nodes.  (Spec-side definition, §4.2/§4.3.) -/
def StronglyConnected {n : ℕ} (W : Mat n) : Prop :=
  ∀ i j : Fin n, i ≠ j → ∃ l, IsWalk W i j l

/-- Node `i` lies on some (nonempty) cycle. -/
def NodeOnCycle {n : ℕ} (W : Mat n) (i : Fin n) : Prop :=
  ∃ l, IsWalk W i i l

/-- The graph has a negative cycle: a closed walk of negative total
weight.  (Spec-side definition, §4.2.) -/
def HasNegCycle {n : ℕ} (W : Mat n) : Prop :=
  ∃ (i : Fin n) (l : List (Fin n)),
    IsWalk W i i l ∧ EF.lt (wWeight W i i l) EF.zero

theorem wWeight_wf {n : ℕ} {W : Mat n} (hW : MatWf W) :
    ∀ (l : List (Fin n)) (i j : Fin n), EF.Wf (wWeight W i j l) := by
  intro l
  induction l with
  | nil => intro i j; exact hW i j
  | cons x l ih => intro i j; exact EF.add_wf (hW i x) (ih x j)

theorem walk_weight_fin {n : ℕ} {W : Mat n} (hW : MatWf W) :
    ∀ {l : List (Fin n)} {i j : Fin n}, IsWalk W i j l →
      ∃ q : ℤ, wWeight W i j l = EF.fin q := by
  intro l
  induction l with
  | nil =>
    intro i j hw
    cases hw with
    | single hij =>
      have := hW i j
      cases hWij : W i j with
      | fin q => exact ⟨q, hWij⟩
      | pinf => exact absurd hWij hij
      | ninf => rw [hWij] at this; exact absurd this id
      | nan => rw [hWij] at this; exact absurd this id
  | cons x l ih =>
    intro i j hw
    cases hw with
    | cons hix hxl =>
      obtain ⟨q, hq⟩ := ih hxl
      have := hW i x
      cases hWix : W i x with
      | fin r => exact ⟨r + q, by simp [wWeight, hWix, hq, EF.add]⟩
      | pinf => exact absurd hWix hix
      | ninf => rw [hWix] at this; exact absurd this id
      | nan => rw [hWix] at this; exact absurd this id

theorem walk_append {n : ℕ} {W : Mat n} :
    ∀ {l₁ l₂ : List (Fin n)} {i x j : Fin n},
      IsWalk W i x l₁ → IsWalk W x j l₂ →
        IsWalk W i j (l₁ ++ x :: l₂) ∧
          wWeight W i j (l₁ ++ x :: l₂) =
            EF.add (wWeight W i x l₁) (wWeight W x j l₂) := by
  intro l₁
  induction l₁ with
  | nil =>
    intro l₂ i x j h1 h2
    cases h1 with
    | single hix => exact ⟨IsWalk.cons hix h2, rfl⟩
  | cons y l₁ ih =>
    intro l₂ i x j h1 h2
    cases h1 with
    | cons hiy hyx =>
      obtain ⟨hw, hwt⟩ := ih hyx h2
      refine ⟨IsWalk.cons hiy hw, ?_⟩
      show EF.add (W i y) (wWeight W y j (l₁ ++ x :: l₂)) = _
      rw [hwt]
      show _ = EF.add (EF.add (W i y) (wWeight W y x l₁)) (wWeight W x j l₂)
      rw [EF.add_assoc]

theorem walk_split {n : ℕ} {W : Mat n} :
    ∀ {l₁ l₂ : List (Fin n)} {i x j : Fin n},
      IsWalk W i j (l₁ ++ x :: l₂) →
        IsWalk W i x l₁ ∧ IsWalk W x j l₂ ∧
          wWeight W i j (l₁ ++ x :: l₂) =
            EF.add (wWeight W i x l₁) (wWeight W x j l₂) := by
  intro l₁
  induction l₁ with
  | nil =>
    intro l₂ i x j h
    cases h with
    | cons hix hxl => exact ⟨IsWalk.single hix, hxl, rfl⟩
  | cons y l₁ ih =>
    intro l₂ i x j h
    cases h with
    | cons hiy hyl =>
      obtain ⟨h1, h2, hwt⟩ := ih hyl
      refine ⟨IsWalk.cons hiy h1, h2, ?_⟩
      show EF.add (W i y) (wWeight W y j (l₁ ++ x :: l₂)) = _
      rw [hwt]
      show _ = EF.add (EF.add (W i y) (wWeight W y x l₁)) (wWeight W x j l₂)
      rw [EF.add_assoc]

/-- Split a list at the first occurrence of a member. -/
theorem exists_first_split {α : Type} [DecidableEq α] {l : List α} {a : α}
    (h : a ∈ l) : ∃ l₁ l₂, l = l₁ ++ a :: l₂ ∧ a ∉ l₁ := by
  induction l with
  | nil => simp at h
  | cons b l ih =>
    by_cases hab : a = b
    · exact ⟨[], l, by simp [hab], by simp⟩
    · have hmem : a ∈ l := by
        rcases List.mem_cons.mp h with h' | h'
        · exact absurd h' hab
        · exact h'
      obtain ⟨l₁, l₂, hl, hnm⟩ := ih hmem
      exact ⟨b :: l₁, l₂, by rw [hl]; rfl, by
        intro hc
        rcases List.mem_cons.mp hc with h' | h'
        · exact hab h'
        · exact hnm h'⟩

/-- Total weight lookup by raw indices; `NaN` out of range (the code can
never look up out of range without panicking first). -/
def wLookup (g : Graph) (a b : ℕ) : EF :=
  if h : a < g.n ∧ b < g.n then g.W ⟨a, h.1⟩ ⟨b, h.2⟩ else EF.nan

/-- Sum of the weight-matrix entries over the consecutive pairs of an
untyped node sequence. -/
def costOfNodes (g : Graph) (l : List ℕ) : EF :=
  (l.zip l.tail).foldl (fun acc p => EF.add acc (wLookup g p.1 p.2)) EF.zero

/-- The weight matrix of a pinned graph, transported to `Fin n`. -/
def gW {n : ℕ} (gp : GraphAt n) : Mat n := fun i j =>
  gp.val.W (Fin.cast gp.property.symm i) (Fin.cast gp.property.symm j)

/-- Balancing duplicates existing edges with their current weights, so it
never changes the weight matrix. -/
theorem addPathEdges_gW {n : ℕ} :
    ∀ (l : List (Fin n)) (gp : GraphAt n), gW (addPathEdges gp l) = gW gp := by
  intro l
  induction l with
  | nil => intro gp; rfl
  | cons a l ih =>
    intro gp
    cases l with
    | nil => rfl
    | cons b rest =>
      show gW (addPathEdges _ (b :: rest)) = gW gp
      rw [ih]
      funext i j
      show (addGraphEdge gp.val _ _ _).W _ _ = gp.val.W _ _
      rw [show (addGraphEdge gp.val (Fin.cast gp.property.symm a)
          (Fin.cast gp.property.symm b)
          (gp.val.W (Fin.cast gp.property.symm a) (Fin.cast gp.property.symm b))).W
          = gp.val.W from upd2_self _ _ _]

/-- `balance_node` leaves every weight entry unchanged. -/
theorem balanceNode_preserves_W (s s' : Solver)
    (h : balanceNode s = some s') :
    ∀ a b : ℕ, wLookup s'.graph a b = wLookup s.graph a b := by
  unfold balanceNode at h
  by_cases hemp : imbalancedIsEmpty (imbalancedNodes s.graph) = true
  · simp only [hemp, if_pos] at h
    obtain rfl := Option.some.inj h
    intro a b; rfl
  · simp only [hemp, if_neg, Bool.not_eq_true] at h
    set base : GraphAt s.graph.n := ⟨s.graph, rfl⟩ with hbase
    have hres := h
    set res : Option (GraphAt s.graph.n) :=
      (bestMatch (imbalancedNodes s.graph) s.fw.D).foldl
        (fun acc fromTo =>
          acc.bind fun gp =>
            if hf : fromTo.1 < s.graph.n then
              if ht : fromTo.2 < s.graph.n then
                match spb s.fw.N ⟨fromTo.1, hf⟩ ⟨fromTo.2, ht⟩
                    (s.graph.n + 1) with
                | none => none
                | some pathL => some (addPathEdges gp pathL)
              else none
            else none)
        (some base) with hresdef
    have hinv : ∀ gp, res = some gp → gW gp = gW base := by
      rw [hresdef]
      apply foldl_invariant _
        (fun (o : Option (GraphAt s.graph.n)) =>
          ∀ gp, o = some gp → gW gp = gW base)
      · intro o ft hmem ho gp hgp
        cases o with
        | none => simp at hgp
        | some gp0 =>
          have h0 := ho gp0 rfl
          simp only [Option.some_bind] at hgp
          by_cases hf : ft.1 < s.graph.n
          · rw [dif_pos hf] at hgp
            by_cases ht : ft.2 < s.graph.n
            · rw [dif_pos ht] at hgp
              rcases hspb : spb s.fw.N ⟨ft.1, hf⟩ ⟨ft.2, ht⟩ (s.graph.n + 1) with
                _ | pathL
              · rw [hspb] at hgp; simp at hgp
              · rw [hspb] at hgp
                obtain rfl := Option.some.inj hgp
                rw [addPathEdges_gW, h0]
            · rw [dif_neg ht] at hgp; simp at hgp
          · rw [dif_neg hf] at hgp; simp at hgp
      · intro gp hgp
        obtain rfl := Option.some.inj hgp
        rfl
    rcases hr : res with _ | gp
    · rw [hr] at hres; simp at hres
    · rw [hr] at hres
      simp only [Option.map_some'] at hres
      obtain rfl := Option.some.inj hres
      have hgw := hinv gp hr
      intro a b
      unfold wLookup
      have hng : gp.val.n = s.graph.n := gp.property
      by_cases hab : a < s.graph.n ∧ b < s.graph.n
      · have hab' : a < gp.val.n ∧ b < gp.val.n := by rw [hng]; exact hab
        rw [dif_pos hab', dif_pos hab]
        have := congrFun (congrFun hgw ⟨a, hab.1⟩) ⟨b, hab.2⟩
        simpa [gW, hbase, Fin.cast] using this
      · have hab' : ¬ (a < gp.val.n ∧ b < gp.val.n) := by rw [hng]; exact hab
        rw [dif_neg hab', dif_neg hab]

/-- `pathCost` over typed nodes agrees with `costOfNodes` over the raw
node sequence. -/
theorem costOfNodes_map (g : Graph) (l : List (Fin g.n)) :
    costOfNodes g (l.map Fin.val) = pathCost g.W l := by
  unfold costOfNodes pathCost
  have hzip : ∀ (l : List (Fin g.n)) (acc : EF),
      ((l.map Fin.val).zip (l.map Fin.val).tail).foldl
        (fun acc p => EF.add acc (wLookup g p.1 p.2)) acc =
      (l.zip l.tail).foldl (fun acc p => EF.add acc (g.W p.1 p.2)) acc := by
    intro l
    induction l with
    | nil => intro acc; rfl
    | cons a l ih =>
      intro acc
      cases l with
      | nil => rfl
      | cons b rest =>
        simp only [List.map_cons, List.tail_cons, List.zip_cons_cons,
          List.foldl_cons]
        have hw : wLookup g (a : ℕ) (b : ℕ) = g.W a b := by
          unfold wLookup
          rw [dif_pos ⟨a.isLt, b.isLt⟩]
        rw [hw]
        exact ih _
  exact hzip l EF.zero

/-- C7: a returned walk's `cost` field is exactly the sum of the
weight-matrix entries over the consecutive node pairs of its node
sequence; balancing never changes a weight entry, so the matrix is still
that of the input instance. -/
theorem solve_walk_cost_is_weight_sum (s : Solver) (ord : Ord) (p : PathR)
    (h : (solveS s ord).1 = SolveResult.walk p) :
    p.cost = costOfNodes (solveS s ord).2.graph p.nodes ∧
      ∀ a b : ℕ, wLookup (solveS s ord).2.graph a b = wLookup s.graph a b := by
  cases hsv : solvable s with
  | false => simp [solveS, hsv] at h
  | true =>
    rcases hb : balanceNode s with _ | s1
    · simp [solveS, hsv, hb] at h
    · rcases hr : hierRun s1.graph ord with _ | pathL
      · simp [solveS, hsv, hb, hr] at h
      · have heq : solveS s ord =
            (SolveResult.walk (mkPath s1.graph.W pathL s1.graph.labels), s1) := by
          simp [solveS, hsv, hb, hr]
        rw [heq] at h ⊢
        have hp : mkPath s1.graph.W pathL s1.graph.labels = p := by
          injection h
        subst hp
        constructor
        · show pathCost s1.graph.W pathL = costOfNodes s1.graph (pathL.map Fin.val)
          rw [costOfNodes_map]
        · exact balanceNode_preserves_W s s1 hb

/-- Witness for C7: the solved two-cycle. -/
theorem solve_walk_cost_is_weight_sum_witness :
    (solveS (newSolver twoCycleG) (canonOrd twoCycleG)).1 =
        SolveResult.walk ⟨[0, 1, 0], EF.fin 2, ["0", "1"]⟩ ∧
      (⟨[0, 1, 0], EF.fin 2, ["0", "1"]⟩ : PathR).cost =
          costOfNodes (solveS (newSolver twoCycleG) (canonOrd twoCycleG)).2.graph
            [0, 1, 0] ∧
        ∀ a b : ℕ,
          wLookup (solveS (newSolver twoCycleG) (canonOrd twoCycleG)).2.graph a b =
            wLookup (newSolver twoCycleG).graph a b := by
  refine ⟨by decide, ?_⟩
  exact solve_walk_cost_is_weight_sum (newSolver twoCycleG) (canonOrd twoCycleG)
    ⟨[0, 1, 0], EF.fin 2, ["0", "1"]⟩ (by decide)

/-- The two-node weight matrix with the single edge `(1, 0)`. -/
def oneBackedgeW : Mat 2 := fun i j =>
  if (i : ℕ) = 1 ∧ (j : ℕ) = 0 then EF.fin 1 else EF.pinf

/-- C4: `shortest_path_between(0, 1)` on the graph with the single edge
`(1, 0)` loops forever: there is no path from `0` to `1`, the `next`
entry holds its garbage initialisation `0`, and the walk never leaves
node `0` — no fuel makes it return. -/
theorem shortest_path_between_diverges_without_path :
    ∀ fuel : ℕ, spb (fwNew oneBackedgeW).N 0 1 fuel = none := by
  intro fuel
  exact spbGo_stuck (fwNew oneBackedgeW).N 1 0 (by decide) (by decide) fuel []

theorem EF.not_pinf_lt (b : EF) : ¬ EF.lt EF.pinf b := by
  cases b <;> simp [EF.lt]

theorem EF.fin_of_wf_ne_pinf {a : EF} (ha : EF.Wf a) (hne : a ≠ EF.pinf) :
    ∃ q : ℤ, a = EF.fin q := by
  cases a with
  | fin q => exact ⟨q, rfl⟩
  | pinf => exact absurd rfl hne
  | ninf => exact absurd ha id
  | nan => exact absurd ha id

theorem EF.zero_add {a : EF} (ha : EF.Wf a) : EF.add EF.zero a = a := by
  cases a <;> simp_all [EF.Wf, EF.zero, EF.add]

theorem EF.add_ne_pinf_parts {a b : EF} (hwa : EF.Wf a) (hwb : EF.Wf b)
    (h : EF.add a b ≠ EF.pinf) : a ≠ EF.pinf ∧ b ≠ EF.pinf := by
  cases a <;> cases b <;> simp_all [EF.Wf, EF.add]

theorem EF.add_right_no_decrease {a c : EF} (hwa : EF.Wf a) (hwc : EF.Wf c)
    (hc : ¬ EF.lt c EF.zero) : ¬ EF.lt (EF.add a c) a := by
  cases a <;> cases c <;> simp_all [EF.Wf, EF.zero, EF.lt, EF.add] <;> omega

theorem EF.add_left_no_decrease {a c : EF} (hwa : EF.Wf a) (hwc : EF.Wf c)
    (hc : ¬ EF.lt c EF.zero) : ¬ EF.lt (EF.add c a) a := by
  cases a <;> cases c <;> simp_all [EF.Wf, EF.zero, EF.lt, EF.add] <;> omega

/-- `step1` written with the triple destructured. -/
theorem step1_eq {n : ℕ} (s : S1 n) (k i j : Fin n) :
    step1 s (k, i, j) =
      if EF.lt (EF.add (s.D i k) (s.D k j)) (s.D i j) then
        ⟨upd2 s.D i j (EF.add (s.D i k) (s.D k j)),
         upd2 s.N i j (s.N i k)⟩
      else s := rfl

theorem step1_wf {n : ℕ} {s : S1 n} (hs : MatWf s.D)
    (t : Fin n × Fin n × Fin n) : MatWf (step1 s t).D := by
  obtain ⟨k, i, j⟩ := t
  rw [step1_eq]
  split
  · intro a b
    show EF.Wf (upd2 s.D i j _ a b)
    by_cases hab : a = i ∧ b = j
    · obtain ⟨rfl, rfl⟩ := hab
      rw [upd2_same]
      exact EF.add_wf (hs a k) (hs k b)
    · rw [upd2_other _ _ hab]
      exact hs a b
  · exact hs

theorem pass1_wf {n : ℕ} {W : Mat n} (hW : MatWf W) : MatWf (pass1 W).D :=
  foldl_invariant step1 (fun s => MatWf s.D) (triples n) ⟨W, initNxt W⟩
    (fun s b _ h => step1_wf h b) hW

theorem step1_le {n : ℕ} (s : S1 n) (t : Fin n × Fin n × Fin n) :
    ∀ i j, EF.le ((step1 s t).D i j) (s.D i j) := by
  obtain ⟨k, i, j⟩ := t
  intro a b
  rw [step1_eq]
  split
  · show EF.le (upd2 s.D i j _ a b) _
    by_cases hab : a = i ∧ b = j
    · obtain ⟨rfl, rfl⟩ := hab
      rw [upd2_same]
      exact Or.inl (by assumption)
    · rw [upd2_other _ _ hab]
      exact EF.le_refl _
  · exact EF.le_refl _

/-- Entries only decrease along any run of `step1`. -/
theorem foldl_step1_le {n : ℕ} (l : List (Fin n × Fin n × Fin n))
    (s : S1 n) : ∀ i j, EF.le ((List.foldl step1 s l).D i j) (s.D i j) := by
  refine foldl_rel step1 (fun s t => ∀ i j, EF.le (t.D i j) (s.D i j))
    ?_ ?_ l s ?_
  · intro a b c h1 h2 i j
    exact EF.le_trans (h2 i j) (h1 i j)
  · intro a i j
    exact EF.le_refl _
  · intro s t i j
    exact step1_le s t i j

/-- Every non-`inf` entry of the distance matrix is witnessed by an
actual walk of exactly that weight. -/
def LBInv {n : ℕ} (W0 : Mat n) (s : S1 n) : Prop :=
  ∀ i j, s.D i j ≠ EF.pinf →
    ∃ l, IsWalk W0 i j l ∧ wWeight W0 i j l = s.D i j

theorem step1_LB {n : ℕ} {W0 : Mat n} {s : S1 n} (hwf : MatWf s.D)
    (hs : LBInv W0 s) (t : Fin n × Fin n × Fin n) : LBInv W0 (step1 s t) := by
  obtain ⟨k, i, j⟩ := t
  rw [step1_eq]
  split
  · intro a b hne
    show ∃ l, IsWalk W0 a b l ∧ wWeight W0 a b l = upd2 s.D i j _ a b
    by_cases hab : a = i ∧ b = j
    · obtain ⟨rfl, rfl⟩ := hab
      rw [upd2_same]
      have hfire : EF.lt (EF.add (s.D a k) (s.D k b)) (s.D a b) := by assumption
      have hdne : EF.add (s.D a k) (s.D k b) ≠ EF.pinf := fun hd =>
        EF.not_pinf_lt _ (hd ▸ hfire)
      obtain ⟨h1, h2⟩ := EF.add_ne_pinf_parts (hwf a k) (hwf k b) hdne
      obtain ⟨l₁, hw₁, hv₁⟩ := hs a k h1
      obtain ⟨l₂, hw₂, hv₂⟩ := hs k b h2
      obtain ⟨hw, hwt⟩ := walk_append hw₁ hw₂
      exact ⟨l₁ ++ k :: l₂, hw, by rw [hwt, hv₁, hv₂]⟩
    · have hne' : s.D a b ≠ EF.pinf := by
        have hp : upd2 s.D i j (EF.add (s.D i k) (s.D k j)) a b ≠ EF.pinf := hne
        rwa [upd2_other _ _ hab] at hp
      rw [upd2_other _ _ hab]
      exact hs a b hne'
  · exact hs

/-- The first pass's distance matrix is a lower bound realised by walks. -/
theorem pass1_LB {n : ℕ} {W0 : Mat n} (hW0 : MatWf W0) :
    LBInv W0 (pass1 W0) := by
  have h := foldl_invariant step1 (fun s => MatWf s.D ∧ LBInv W0 s)
    (triples n) ⟨W0, initNxt W0⟩
    (fun s b _ h => ⟨step1_wf h.1 b, step1_LB h.1 h.2 b⟩)
    ⟨hW0, fun i j hne => ⟨[], IsWalk.single hne, rfl⟩⟩
  exact h.2

/-- `step2` written with the triple destructured. -/
theorem step2_eq {n : ℕ} (s : S2 n) (k i j : Fin n) :
    step2 s (k, i, j) =
      if EF.lt (EF.add (s.D i k) (s.D k j)) (s.D i j) then
        ⟨upd2 s.D i j EF.ninf, upd2 s.N i j usizeMax, true⟩
      else s := rfl

/-- Every triple occurs in the loop nest. -/
theorem mem_triples {n : ℕ} (t : Fin n × Fin n × Fin n) : t ∈ triples n := by
  obtain ⟨k, i, j⟩ := t
  simp [triples, List.mem_flatMap, List.mem_map, List.mem_finRange]

/-- Once set, `have_negative_cycle` stays set. -/
theorem fold2_flag_absorb {n : ℕ} (l : List (Fin n × Fin n × Fin n))
    (s : S2 n) (hs : s.flag = true) : (List.foldl step2 s l).flag = true := by
  refine foldl_invariant step2 (fun s => s.flag = true) l s ?_ hs
  intro s t _ h
  obtain ⟨k, i, j⟩ := t
  rw [step2_eq]
  split
  · rfl
  · exact h

/-- No relaxation firing leaves the second pass's state untouched. -/
theorem fold2_no_fire {n : ℕ} :
    ∀ (l : List (Fin n × Fin n × Fin n)) (s : S2 n),
      (∀ t ∈ l, ¬ EF.lt (EF.add (s.D t.2.1 t.1) (s.D t.1 t.2.2))
        (s.D t.2.1 t.2.2)) →
      List.foldl step2 s l = s := by
  intro l
  induction l with
  | nil => intro s _; rfl
  | cons t l ih =>
    intro s h
    obtain ⟨k, i, j⟩ := t
    have hstep : step2 s (k, i, j) = s := by
      rw [step2_eq, if_neg (h (k, i, j) (List.mem_cons_self _ _))]
    rw [List.foldl_cons, hstep]
    exact ih s fun t ht => h t (List.mem_cons_of_mem _ ht)

/-- A run of the second pass that ends with the flag clear never fired:
the state is unchanged and no triple improves the input matrix. -/
theorem fold2_flag_false {n : ℕ} :
    ∀ (l : List (Fin n × Fin n × Fin n)) (s : S2 n),
      (List.foldl step2 s l).flag = false →
      List.foldl step2 s l = s ∧
        ∀ t ∈ l, ¬ EF.lt (EF.add (s.D t.2.1 t.1) (s.D t.1 t.2.2))
          (s.D t.2.1 t.2.2) := by
  intro l
  induction l with
  | nil => intro s _; exact ⟨rfl, by simp⟩
  | cons t l ih =>
    intro s h
    obtain ⟨k, i, j⟩ := t
    rw [List.foldl_cons] at h
    have hnf : ¬ EF.lt (EF.add (s.D i k) (s.D k j)) (s.D i j) := by
      intro hf
      have : (step2 s (k, i, j)).flag = true := by
        rw [step2_eq, if_pos hf]
      rw [fold2_flag_absorb l _ this] at h
      exact absurd h (by simp)
    have hstep : step2 s (k, i, j) = s := by
      rw [step2_eq, if_neg hnf]
    rw [hstep] at h
    obtain ⟨h1, h2⟩ := ih s h
    refine ⟨by rw [List.foldl_cons, hstep]; exact h1, ?_⟩
    intro t ht
    rcases List.mem_cons.mp ht with rfl | ht'
    · exact hnf
    · exact h2 t ht'

/-- The negative-cycle flag is raised exactly when some triple still
improves the distance matrix produced by the first pass. -/
theorem pass2_flag_iff {n : ℕ} (s : S1 n) :
    (pass2 s).flag = true ↔
      ∃ k i j : Fin n,
        EF.lt (EF.add (s.D i k) (s.D k j)) (s.D i j) := by
  constructor
  · intro h
    by_contra hno
    push_neg at hno
    have : pass2 s = ⟨s.D, s.N, false⟩ := by
      unfold pass2
      exact fold2_no_fire (triples n) ⟨s.D, s.N, false⟩
        (fun t _ => hno t.1 t.2.1 t.2.2)
    rw [this] at h
    exact absurd h (by simp)
  · intro ⟨k, i, j, hf⟩
    by_contra h
    have hfalse : (pass2 s).flag = false := by
      cases hflag : (pass2 s).flag
      · rfl
      · exact absurd hflag h
    obtain ⟨_, h2⟩ := fold2_flag_false (triples n) ⟨s.D, s.N, false⟩ hfalse
    exact h2 (k, i, j) (mem_triples _) hf

/-- With the flag clear, the second pass does not touch the matrices. -/
theorem pass2_flag_false_state {n : ℕ} (s : S1 n)
    (h : (pass2 s).flag = false) :
    (pass2 s).D = s.D ∧ (pass2 s).N = s.N := by
  obtain ⟨h1, _⟩ := fold2_flag_false (triples n) ⟨s.D, s.N, false⟩ h
  exact ⟨by rw [show pass2 s = _ from h1], by rw [show pass2 s = _ from h1]⟩

/-- A negative diagonal entry makes the triple `(i, i, i)` fire. -/
theorem fire_of_neg_diag {n : ℕ} {D : Mat n} {i : Fin n}
    (hwf : EF.Wf (D i i)) (h : EF.lt (D i i) EF.zero) :
    EF.lt (EF.add (D i i) (D i i)) (D i i) := by
  cases hD : D i i with
  | fin q =>
    rw [hD] at h
    have : q < 0 := h
    show EF.lt (EF.fin (q + q)) (EF.fin q)
    show q + q < q
    omega
  | pinf => rw [hD] at h; exact absurd h (by simp [EF.lt, EF.zero])
  | ninf => rw [hD] at hwf; exact absurd hwf id
  | nan => rw [hD] at hwf; exact absurd hwf id

/-- The `(i, j)` pairs of one pivot round, in loop order. -/
def pairList (n : ℕ) : List (Fin n × Fin n) :=
  (List.finRange n).product (List.finRange n)

theorem roundTriples_eq_pairList {n : ℕ} (k : Fin n) :
    roundTriples k = (pairList n).map fun p => (k, p.1, p.2) := by
  simp only [roundTriples, pairList, List.product, List.map_flatMap,
    List.map_map]
  rfl

theorem pairList_nodup (n : ℕ) : (pairList n).Nodup :=
  (List.nodup_finRange n).product (List.nodup_finRange n)

theorem mem_pairList {n : ℕ} (p : Fin n × Fin n) : p ∈ pairList n := by
  obtain ⟨i, j⟩ := p
  simp [pairList, List.product, List.mem_flatMap, List.mem_map,
    List.mem_finRange]

/-- One textbook Floyd-Warshall round applied functionally to the whole
distance matrix. -/
def roundD {n : ℕ} (k : Fin n) (D : Mat n) : Mat n := fun i j =>
  if EF.lt (EF.add (D i k) (D k j)) (D i j) then EF.add (D i k) (D k j)
  else D i j

/-- The matching functional update of the `next` table. -/
def roundN {n : ℕ} (k : Fin n) (D : Mat n) (N : Nxt n) : Nxt n := fun i j =>
  if EF.lt (EF.add (D i k) (D k j)) (D i j) then N i k else N i j

/-- One textbook round on the full first-pass state. -/
def roundS {n : ℕ} (k : Fin n) (s : S1 n) : S1 n :=
  ⟨roundD k s.D, roundN k s.D s.N⟩

/-- With a nonnegative pivot diagonal, nothing in pivot row `k` or pivot
column `k` fires, so the in-place round and the functional round agree;
this is the inner induction over the processed `(i, j)` pairs. -/
theorem roundFold {n : ℕ} (k : Fin n) (s : S1 n) (hwf : MatWf s.D)
    (hkk : ¬ EF.lt (s.D k k) EF.zero) :
    ∀ (ps : List (Fin n × Fin n)) (t : S1 n), ps.Nodup →
      (∀ a, t.D a k = s.D a k) →
      (∀ b, t.D k b = s.D k b) →
      (∀ a, t.N a k = s.N a k) →
      (∀ p ∈ ps, t.D p.1 p.2 = s.D p.1 p.2 ∧ t.N p.1 p.2 = s.N p.1 p.2) →
      (∀ p ∈ ps,
        (List.foldl step1 t (ps.map fun p => (k, p.1, p.2))).D p.1 p.2 =
            roundD k s.D p.1 p.2 ∧
          (List.foldl step1 t (ps.map fun p => (k, p.1, p.2))).N p.1 p.2 =
            roundN k s.D s.N p.1 p.2) ∧
      (∀ a b, (a, b) ∉ ps →
        (List.foldl step1 t (ps.map fun p => (k, p.1, p.2))).D a b =
            t.D a b ∧
          (List.foldl step1 t (ps.map fun p => (k, p.1, p.2))).N a b =
            t.N a b) := by
  intro ps
  induction ps with
  | nil =>
    intro t _ _ _ _ _
    exact ⟨fun p hp => absurd hp (by simp), fun a b _ => ⟨rfl, rfl⟩⟩
  | cons hd ps ih =>
    intro t hnd hrow hcol hNrow hmem
    obtain ⟨i, j⟩ := hd
    have hij := hmem (i, j) (List.mem_cons_self _ _)
    have hfeq : EF.lt (EF.add (t.D i k) (t.D k j)) (t.D i j) ↔
        EF.lt (EF.add (s.D i k) (s.D k j)) (s.D i j) := by
      rw [hrow i, hcol j, hij.1]
    have hnotin : (i, j) ∉ ps := (List.nodup_cons.mp hnd).1
    have hndps : ps.Nodup := (List.nodup_cons.mp hnd).2
    by_cases hf : EF.lt (EF.add (s.D i k) (s.D k j)) (s.D i j)
    · -- the pair fires; it cannot lie in pivot row or column
      have hjk : j ≠ k := by
        intro he
        rw [he] at hf
        exact EF.add_right_no_decrease (hwf i k) (hwf k k) hkk hf
      have hik : i ≠ k := by
        intro he
        rw [he] at hf
        exact EF.add_left_no_decrease (hwf k j) (hwf k k) hkk hf
      have hstep : step1 t (k, i, j) =
          ⟨upd2 t.D i j (EF.add (s.D i k) (s.D k j)),
           upd2 t.N i j (s.N i k)⟩ := by
        rw [step1_eq, if_pos (hfeq.mpr hf), hrow i, hcol j, hNrow i]
      simp only [List.map_cons, List.foldl_cons, hstep]
      have hrow' : ∀ a,
          (upd2 t.D i j (EF.add (s.D i k) (s.D k j))) a k = s.D a k := by
        intro a
        rw [upd2_other _ _ (fun h => hjk h.2.symm)]
        exact hrow a
      have hcol' : ∀ b,
          (upd2 t.D i j (EF.add (s.D i k) (s.D k j))) k b = s.D k b := by
        intro b
        rw [upd2_other _ _ (fun h => hik h.1.symm)]
        exact hcol b
      have hNrow' : ∀ a, (upd2 t.N i j (s.N i k)) a k = s.N a k := by
        intro a
        rw [upd2_other _ _ (fun h => hjk h.2.symm)]
        exact hNrow a
      have hmem' : ∀ p ∈ ps,
          (upd2 t.D i j (EF.add (s.D i k) (s.D k j))) p.1 p.2 = s.D p.1 p.2 ∧
            (upd2 t.N i j (s.N i k)) p.1 p.2 = s.N p.1 p.2 := by
        intro p hp
        have hpne : ¬ (p.1 = i ∧ p.2 = j) := by
          rintro ⟨h1, h2⟩
          exact hnotin (by
            have : p = (i, j) := Prod.ext h1 h2
            rwa [this] at hp)
        rw [upd2_other _ _ hpne, upd2_other _ _ hpne]
        exact hmem p (List.mem_cons_of_mem _ hp)
      obtain ⟨ihin, ihout⟩ :=
        ih ⟨upd2 t.D i j (EF.add (s.D i k) (s.D k j)),
            upd2 t.N i j (s.N i k)⟩ hndps hrow' hcol' hNrow' hmem'
      constructor
      · intro p hp
        rcases List.mem_cons.mp hp with rfl | hp'
        · obtain ⟨hD, hN⟩ := ihout i j hnotin
          refine ⟨hD.trans ?_, hN.trans ?_⟩
          · exact (upd2_same _ _ _ _).trans (if_pos hf).symm
          · exact (upd2_same _ _ _ _).trans (if_pos hf).symm
        · exact ihin p hp'
      · intro a b hab
        have hab1 : (a, b) ∉ ps := fun h =>
          hab (List.mem_cons_of_mem _ h)
        have hab2 : ¬ (a = i ∧ b = j) := by
          rintro ⟨rfl, rfl⟩
          exact hab (List.mem_cons_self _ _)
        obtain ⟨hD, hN⟩ := ihout a b hab1
        exact ⟨hD.trans (upd2_other _ _ hab2), hN.trans (upd2_other _ _ hab2)⟩
    · have hstep : step1 t (k, i, j) = t := by
        rw [step1_eq, if_neg (fun h => hf (hfeq.mp h))]
      simp only [List.map_cons, List.foldl_cons, hstep]
      obtain ⟨ihin, ihout⟩ := ih t hndps hrow hcol hNrow
        (fun p hp => hmem p (List.mem_cons_of_mem _ hp))
      constructor
      · intro p hp
        rcases List.mem_cons.mp hp with rfl | hp'
        · obtain ⟨hD, hN⟩ := ihout i j hnotin
          rw [hD, hN, hij.1, hij.2]
          exact ⟨(if_neg hf).symm, (if_neg hf).symm⟩
        · exact ihin p hp'
      · intro a b hab
        exact ihout a b (fun h => hab (List.mem_cons_of_mem _ h))

/-- In-place processing of one pivot round equals the functional
textbook round when the pivot's diagonal entry is nonnegative. -/
theorem inplaceRound_eq_roundS {n : ℕ} (k : Fin n) (s : S1 n)
    (hwf : MatWf s.D) (hkk : ¬ EF.lt (s.D k k) EF.zero) :
    List.foldl step1 s (roundTriples k) = roundS k s := by
  rw [roundTriples_eq_pairList]
  obtain ⟨h1, _⟩ := roundFold k s hwf hkk (pairList n) s (pairList_nodup n)
    (fun a => rfl) (fun b => rfl) (fun a => rfl) (fun p _ => ⟨rfl, rfl⟩)
  have hD : (List.foldl step1 s ((pairList n).map fun p => (k, p.1, p.2))).D =
      roundD k s.D :=
    funext fun a => funext fun b => (h1 (a, b) (mem_pairList _)).1
  have hN : (List.foldl step1 s ((pairList n).map fun p => (k, p.1, p.2))).N =
      roundN k s.D s.N :=
    funext fun a => funext fun b => (h1 (a, b) (mem_pairList _)).2
  cases hfold : List.foldl step1 s ((pairList n).map fun p => (k, p.1, p.2)) with
  | mk D N =>
    rw [hfold] at hD hN
    rw [show D = roundD k s.D from hD, show N = roundN k s.D s.N from hN]
    rfl

theorem foldl_over_flatMap {α β γ : Type} (f : α → γ → α) (g : β → List γ) :
    ∀ (l : List β) (s : α),
      List.foldl f s (l.flatMap g) =
        List.foldl (fun s b => List.foldl f s (g b)) s l := by
  intro l
  induction l with
  | nil => intro s; rfl
  | cons b l ih =>
    intro s
    rw [List.flatMap_cons, List.foldl_append, List.foldl_cons]
    exact ih _

/-- One full pivot round of the in-place first pass. -/
def inplaceRound {n : ℕ} (s : S1 n) (k : Fin n) : S1 n :=
  List.foldl step1 s (roundTriples k)

theorem pass1_eq_rounds {n : ℕ} (W : Mat n) :
    pass1 W = List.foldl inplaceRound ⟨W, initNxt W⟩ (List.finRange n) := by
  unfold pass1
  rw [triples_eq_rounds, foldl_over_flatMap]
  rfl

/-- The first pass stopped after its first `m` pivot rounds. -/
def roundsUpTo {n : ℕ} (W : Mat n) (m : ℕ) : S1 n :=
  List.foldl inplaceRound ⟨W, initNxt W⟩ ((List.finRange n).take m)

theorem roundsUpTo_full {n : ℕ} (W : Mat n) : roundsUpTo W n = pass1 W := by
  unfold roundsUpTo
  rw [pass1_eq_rounds]
  rw [List.take_of_length_le (by rw [List.length_finRange])]

theorem roundsUpTo_succ {n : ℕ} (W : Mat n) (k : ℕ) (hk : k < n) :
    roundsUpTo W (k + 1) = inplaceRound (roundsUpTo W k) ⟨k, hk⟩ := by
  unfold roundsUpTo
  rw [List.take_succ, List.foldl_append]
  have hgk : (List.finRange n)[k]? = some ⟨k, hk⟩ := by
    rw [List.getElem?_eq_getElem (by rw [List.length_finRange]; exact hk)]
    simp
  rw [hgk]
  rfl

theorem inplaceRound_le {n : ℕ} (s : S1 n) (k : Fin n) :
    ∀ i j, EF.le ((inplaceRound s k).D i j) (s.D i j) :=
  foldl_step1_le (roundTriples k) s

theorem inplaceRound_wf {n : ℕ} {s : S1 n} (hs : MatWf s.D) (k : Fin n) :
    MatWf (inplaceRound s k).D :=
  foldl_invariant step1 (fun s => MatWf s.D) (roundTriples k) s
    (fun s b _ h => step1_wf h b) hs

theorem roundsUpTo_wf {n : ℕ} {W : Mat n} (hW : MatWf W) (m : ℕ) :
    MatWf (roundsUpTo W m).D :=
  foldl_invariant inplaceRound (fun s => MatWf s.D) _ ⟨W, initNxt W⟩
    (fun s b _ h => inplaceRound_wf h b) hW

/-- The final matrix lies (pointwise) below every round boundary. -/
theorem pass1_le_roundsUpTo {n : ℕ} (W : Mat n) (m : ℕ) :
    ∀ i j, EF.le ((pass1 W).D i j) ((roundsUpTo W m).D i j) := by
  have hsplit : pass1 W =
      List.foldl inplaceRound (roundsUpTo W m) ((List.finRange n).drop m) := by
    rw [pass1_eq_rounds]
    unfold roundsUpTo
    rw [← List.foldl_append, List.take_append_drop]
  rw [hsplit]
  exact foldl_rel inplaceRound (fun s t => ∀ i j, EF.le (t.D i j) (s.D i j))
    (fun a b c h1 h2 i j => EF.le_trans (h2 i j) (h1 i j))
    (fun a i j => EF.le_refl _) _ _
    (fun s k i j => inplaceRound_le s k i j)

/-- If the final diagonal is nonnegative, so is the diagonal at every
round boundary. -/
theorem roundsUpTo_diag {n : ℕ} {W : Mat n}
    (hdiag : ∀ a, ¬ EF.lt ((pass1 W).D a a) EF.zero) (m : ℕ) :
    ∀ a, ¬ EF.lt ((roundsUpTo W m).D a a) EF.zero := by
  intro a h
  exact hdiag a (EF.lt_of_le_of_lt (pass1_le_roundsUpTo W m a a) h)

/-- Under a nonnegative final diagonal, every in-place round is the
textbook round. -/
theorem roundsUpTo_succ_textbook {n : ℕ} {W : Mat n} (hW : MatWf W)
    (hdiag : ∀ a, ¬ EF.lt ((pass1 W).D a a) EF.zero) (k : ℕ) (hk : k < n) :
    roundsUpTo W (k + 1) = roundS ⟨k, hk⟩ (roundsUpTo W k) := by
  rw [roundsUpTo_succ W k hk]
  exact inplaceRound_eq_roundS _ _ (roundsUpTo_wf hW k)
    (roundsUpTo_diag hdiag k ⟨k, hk⟩)

/-- The optimality invariant: `D i j` is at most the weight of every
walk from `i` to `j` whose intermediate nodes all lie below `K`. -/
def OptTo {n : ℕ} (W0 : Mat n) (K : ℕ) (D : Mat n) : Prop :=
  ∀ (i j : Fin n) (l : List (Fin n)), IsWalk W0 i j l →
    (∀ x ∈ l, (x : ℕ) < K) → EF.le (D i j) (wWeight W0 i j l)

theorem optTo_init {n : ℕ} (W0 : Mat n) : OptTo W0 0 W0 := by
  intro i j l hw hint
  cases l with
  | nil => exact EF.le_refl _
  | cons x l => exact absurd (hint x (List.mem_cons_self _ _)) (by omega)

theorem roundD_le {n : ℕ} (k : Fin n) (D : Mat n) (i j : Fin n) :
    EF.le (roundD k D i j) (D i j) := by
  unfold roundD
  split
  · exact Or.inl (by assumption)
  · exact EF.le_refl _

theorem roundD_le_cand {n : ℕ} {D : Mat n} (hwf : MatWf D) (k i j : Fin n) :
    EF.le (roundD k D i j) (EF.add (D i k) (D k j)) := by
  unfold roundD
  split
  · exact EF.le_refl _
  · exact EF.le_of_not_lt (EF.add_wf (hwf i k) (hwf k j)) (hwf i j)
      (by assumption)

theorem roundD_wf {n : ℕ} {D : Mat n} (hwf : MatWf D) (k : Fin n) :
    MatWf (roundD k D) := by
  intro i j
  unfold roundD
  split
  · exact EF.add_wf (hwf i k) (hwf k j)
  · exact hwf i j

/-- One textbook round preserves the optimality invariant, raising the
intermediate-node bound from `k` to `k + 1`: a walk through `k` is split
at the first visit of `k`, and the tail's further visits of `k` are
collapsed against the nonnegative diagonal. -/
theorem optTo_round {n : ℕ} {W0 : Mat n} (hW0 : MatWf W0) {D : Mat n}
    (hwf : MatWf D) {k : Fin n} (hkk : ¬ EF.lt (D k k) EF.zero)
    (hopt : OptTo W0 (k : ℕ) D) :
    OptTo W0 ((k : ℕ) + 1) (roundD k D) := by
  have hbelow : ∀ {l : List (Fin n)}, k ∉ l →
      (∀ x ∈ l, (x : ℕ) < (k : ℕ) + 1) → ∀ x ∈ l, (x : ℕ) < (k : ℕ) := by
    intro l hnotin hint x hx
    have h1 : (x : ℕ) < (k : ℕ) + 1 := hint x hx
    have h3 : (x : ℕ) ≠ (k : ℕ) := fun he => hnotin (Fin.ext he ▸ hx)
    omega
  have W2 : ∀ (m : ℕ) (l₂ : List (Fin n)) (j : Fin n), l₂.length ≤ m →
      IsWalk W0 k j l₂ → (∀ x ∈ l₂, (x : ℕ) < (k : ℕ) + 1) →
      EF.le (D k j) (wWeight W0 k j l₂) := by
    intro m
    induction m with
    | zero =>
      intro l₂ j hlen hw _
      have : l₂ = [] := List.length_eq_zero.mp (Nat.le_zero.mp hlen)
      subst this
      exact hopt k j [] hw (by simp)
    | succ m ih =>
      intro l₂ j hlen hw hint
      by_cases hkmem : k ∈ l₂
      · obtain ⟨m₁, m₂, heq, hnotin⟩ := exists_first_split hkmem
        subst heq
        obtain ⟨hw1, hw2, hwt⟩ := walk_split hw
        have hloop : EF.le (D k k) (wWeight W0 k k m₁) :=
          hopt k k m₁ hw1 (hbelow hnotin
            (fun x hx => hint x (List.mem_append.mpr (Or.inl hx))))
        have hzero : EF.le EF.zero (D k k) :=
          EF.le_of_not_lt (hwf k k) (by trivial) hkk
        have hloopnn : EF.le EF.zero (wWeight W0 k k m₁) :=
          EF.le_trans hzero hloop
        have htail : EF.le (D k j) (wWeight W0 k j m₂) := by
          refine ih m₂ j ?_ hw2
            (fun x hx => hint x
              (List.mem_append.mpr (Or.inr (List.mem_cons_of_mem _ hx))))
          have := List.length_append m₁ (k :: m₂)
          simp only [List.length_cons] at this
          omega
        rw [hwt]
        refine EF.le_trans htail ?_
        have hmono : EF.le (EF.add EF.zero (wWeight W0 k j m₂))
            (EF.add (wWeight W0 k k m₁) (wWeight W0 k j m₂)) :=
          EF.add_le_add_right _ (wWeight_wf hW0 m₂ k j) (by trivial) hloopnn
        rwa [EF.zero_add (wWeight_wf hW0 m₂ k j)] at hmono
      · exact hopt k j l₂ hw (hbelow hkmem hint)
  intro i j l hw hint
  by_cases hkmem : k ∈ l
  · obtain ⟨l₁, l₂, heq, hnotin⟩ := exists_first_split hkmem
    subst heq
    obtain ⟨hw1, hw2, hwt⟩ := walk_split hw
    have h1 : EF.le (D i k) (wWeight W0 i k l₁) :=
      hopt i k l₁ hw1 (hbelow hnotin
        (fun x hx => hint x (List.mem_append.mpr (Or.inl hx))))
    have h2 : EF.le (D k j) (wWeight W0 k j l₂) :=
      W2 l₂.length l₂ j (Nat.le_refl _) hw2
        (fun x hx => hint x
          (List.mem_append.mpr (Or.inr (List.mem_cons_of_mem _ hx))))
    rw [hwt]
    exact EF.le_trans (roundD_le_cand hwf k i j)
      (EF.add_le_add (hwf i k) (hwf k j) (wWeight_wf hW0 l₁ i k) h1 h2)
  · exact EF.le_trans (roundD_le k D i j)
      (hopt i j l hw (hbelow hkmem hint))

theorem EF.ne_pinf_of_le_fin {a : EF} {q : ℤ} (h : EF.le a (EF.fin q)) :
    a ≠ EF.pinf := by
  rcases h with h | h
  · exact EF.ne_pinf_of_lt h (fun he => EF.noConfusion he)
  · rw [h]; exact fun he => EF.noConfusion he

theorem roundsUpTo_zero {n : ℕ} (W : Mat n) :
    roundsUpTo W 0 = ⟨W, initNxt W⟩ := rfl

/-- The optimality invariant holds at every round boundary when the
final diagonal is nonnegative. -/
theorem roundsUpTo_opt {n : ℕ} {W : Mat n} (hW : MatWf W)
    (hdiag : ∀ a, ¬ EF.lt ((pass1 W).D a a) EF.zero) :
    ∀ m, m ≤ n → OptTo W m (roundsUpTo W m).D := by
  intro m
  induction m with
  | zero =>
    intro _
    rw [roundsUpTo_zero]
    exact optTo_init W
  | succ k ih =>
    intro hk1
    have hk : k < n := hk1
    rw [roundsUpTo_succ_textbook hW hdiag k hk]
    exact optTo_round hW (roundsUpTo_wf hW k)
      (roundsUpTo_diag hdiag k ⟨k, hk⟩) (ih (Nat.le_of_lt hk))

/-- With a nonnegative final diagonal, the first pass's matrix is at most
the weight of every walk. -/
theorem pass1_opt_all {n : ℕ} {W : Mat n} (hW : MatWf W)
    (hdiag : ∀ a, ¬ EF.lt ((pass1 W).D a a) EF.zero) :
    ∀ (i j : Fin n) (l : List (Fin n)), IsWalk W i j l →
      EF.le ((pass1 W).D i j) (wWeight W i j l) := by
  intro i j l hw
  have h := roundsUpTo_opt hW hdiag n (Nat.le_refl n)
  rw [roundsUpTo_full] at h
  exact h i j l hw (fun x _ => x.isLt)

/-- A triple still fires on the converged matrix iff the diagonal went
negative. -/
theorem neg_diag_iff_fire {n : ℕ} {W : Mat n} (hW : MatWf W) :
    (∃ i, EF.lt ((pass1 W).D i i) EF.zero) ↔
      ∃ k i j : Fin n,
        EF.lt (EF.add ((pass1 W).D i k) ((pass1 W).D k j))
          ((pass1 W).D i j) := by
  constructor
  · intro ⟨i, h⟩
    exact ⟨i, i, i, fire_of_neg_diag (pass1_wf hW i i) h⟩
  · intro ⟨k, i, j, hf⟩
    by_contra hno
    push_neg at hno
    have hwf1 := pass1_wf hW
    have hdne : EF.add ((pass1 W).D i k) ((pass1 W).D k j) ≠ EF.pinf :=
      fun he => EF.not_pinf_lt _ (he ▸ hf)
    obtain ⟨h1, h2⟩ := EF.add_ne_pinf_parts (hwf1 i k) (hwf1 k j) hdne
    obtain ⟨l₁, hl₁, he₁⟩ := pass1_LB hW i k h1
    obtain ⟨l₂, hl₂, he₂⟩ := pass1_LB hW k j h2
    obtain ⟨hwalk, hwt⟩ := walk_append hl₁ hl₂
    have hle := pass1_opt_all hW hno i j _ hwalk
    rw [hwt, he₁, he₂] at hle
    exact EF.not_lt_of_le hle hf

/-- The second pass's flag goes up exactly when the first pass left a
negative diagonal entry. -/
theorem flag_iff_neg_diag {n : ℕ} {W : Mat n} (hW : MatWf W) :
    (fwNew W).flag = true ↔ ∃ i, EF.lt ((pass1 W).D i i) EF.zero := by
  rw [show fwNew W = pass2 (pass1 W) from rfl, pass2_flag_iff]
  exact (neg_diag_iff_fire hW).symm

/-- The graph has a negative cycle iff the first pass leaves a negative
diagonal entry. -/
theorem negCycle_iff_neg_diag {n : ℕ} {W : Mat n} (hW : MatWf W) :
    HasNegCycle W ↔ ∃ i, EF.lt ((pass1 W).D i i) EF.zero := by
  constructor
  · intro ⟨i, l, hwalk, hneg⟩
    by_contra hno
    push_neg at hno
    exact hno i (EF.lt_of_le_of_lt (pass1_opt_all hW hno i i l hwalk) hneg)
  · intro ⟨i, hi⟩
    have hne : (pass1 W).D i i ≠ EF.pinf :=
      EF.ne_pinf_of_lt hi (fun he => EF.noConfusion he)
    obtain ⟨l, hwalk, hwt⟩ := pass1_LB hW i i hne
    exact ⟨i, l, hwalk, hwt ▸ hi⟩

/-- C3: `graph_has_no_negative_cycle` answers `true` exactly when the
single converged Floyd-Warshall pass ends with `D[i][i] ≥ 0` for every
node `i` — the second relaxation pass raises the flag iff some diagonal
entry went negative. -/
theorem neg_cycle_flag_matches_diag_criterion {n : ℕ} {W : Mat n}
    (hW : MatWf W) :
    graphHasNoNegativeCycle (fwNew W) = true ↔
      ∀ i : Fin n, ¬ EF.lt ((pass1 W).D i i) EF.zero := by
  rw [show graphHasNoNegativeCycle (fwNew W) = ! (fwNew W).flag from rfl]
  constructor
  · intro h i hlt
    have hfalse : (fwNew W).flag = false := by
      cases hf : (fwNew W).flag
      · rfl
      · rw [hf] at h; exact absurd h (by simp)
    have := (flag_iff_neg_diag hW).mpr ⟨i, hlt⟩
    rw [hfalse] at this
    exact absurd this (by simp)
  · intro h
    cases hf : (fwNew W).flag
    · rfl
    · obtain ⟨i, hi⟩ := (flag_iff_neg_diag hW).mp hf
      exact absurd hi (h i)

/-- Witness for C3 at the concrete two-cycle weight matrix. -/
theorem neg_cycle_flag_matches_diag_criterion_witness :
    MatWf twoCycleG.W ∧
      (graphHasNoNegativeCycle (fwNew twoCycleG.W) = true ↔
        ∀ i, ¬ EF.lt ((pass1 twoCycleG.W).D i i) EF.zero) :=
  ⟨by decide, neg_cycle_flag_matches_diag_criterion (by decide)⟩

/-- The chain of `next`-pointers from `i` towards target `j`: the list
records the visited nodes starting at `i` and excluding `j`.  This is
exactly the sequence of nodes `shortest_path_between` walks through. -/
inductive NChain {n : ℕ} (N : Nxt n) (j : Fin n) : Fin n → List (Fin n) → Prop
| base {i : Fin n} (hne : i ≠ j) (hN : N i j = (j : ℕ)) : NChain N j i [i]
| step {i m : Fin n} {l : List (Fin n)} (hne : i ≠ j) (hm : N i j = (m : ℕ))
    (hmj : m ≠ j) (hc : NChain N j m l) : NChain N j i (i :: l)

theorem nchain_unique {n : ℕ} {N : Nxt n} {j : Fin n} :
    ∀ {i : Fin n} {l l' : List (Fin n)},
      NChain N j i l → NChain N j i l' → l = l' := by
  intro i l l' h1
  induction h1 generalizing l' with
  | base hne hN =>
    intro h2
    cases h2 with
    | base => rfl
    | step hne2 hm2 hmj2 hc2 =>
      rw [hN] at hm2
      exact absurd (Fin.ext hm2.symm) hmj2
  | step hne hm hmj hc ih =>
    intro h2
    cases h2 with
    | base hne2 hN2 =>
      rw [hN2] at hm
      exact absurd (Fin.ext hm).symm hmj
    | step hne2 hm2 hmj2 hc2 =>
      rw [hm] at hm2
      have : _ = _ := Fin.ext hm2
      rw [ih (this ▸ hc2)]

theorem nchain_not_mem_target {n : ℕ} {N : Nxt n} {j : Fin n} :
    ∀ {i : Fin n} {l : List (Fin n)}, NChain N j i l → j ∉ l := by
  intro i l h
  induction h with
  | base hne hN =>
    intro hmem
    rcases List.mem_singleton.mp hmem with rfl
    exact hne rfl
  | step hne hm hmj hc ih =>
    intro hmem
    rcases List.mem_cons.mp hmem with he | hmem'
    · exact hne he.symm
    · exact ih hmem'

theorem nchain_suffix {n : ℕ} {N : Nxt n} {j : Fin n} :
    ∀ {i : Fin n} {l : List (Fin n)}, NChain N j i l →
      ∀ x ∈ l, ∃ l₁ ms, l = l₁ ++ x :: ms ∧ NChain N j x (x :: ms) := by
  intro i l h
  induction h with
  | base hne hN =>
    intro x hx
    rcases List.mem_singleton.mp hx with rfl
    exact ⟨[], [], rfl, NChain.base hne hN⟩
  | step hne hm hmj hc ih =>
    intro x hx
    rcases List.mem_cons.mp hx with rfl | hx'
    · exact ⟨[], _, rfl, NChain.step hne hm hmj hc⟩
    · obtain ⟨l₁, ms, heq, hch⟩ := ih x hx'
      exact ⟨_ :: l₁, ms, by rw [heq]; rfl, hch⟩

theorem nchain_nodup {n : ℕ} {N : Nxt n} {j : Fin n} :
    ∀ {i : Fin n} {l : List (Fin n)}, NChain N j i l → l.Nodup := by
  intro i l h
  induction h with
  | base hne hN => simp
  | step hne hm hmj hc ih =>
    rw [List.nodup_cons]
    refine ⟨?_, ih⟩
    intro hmem
    obtain ⟨l₁, ms, heq, hch⟩ := nchain_suffix hc _ hmem
    have hfull : NChain N j _ (_ :: ms) := hch
    have hfull2 : NChain N j _ (_ :: _) := NChain.step hne hm hmj hc
    have := nchain_unique hfull2 hfull
    have hlen := congrArg List.length this
    simp only [List.length_cons] at hlen
    rw [heq] at hlen
    simp only [List.length_append, List.length_cons] at hlen
    omega

theorem nchain_length_le {n : ℕ} {N : Nxt n} {j i : Fin n}
    {l : List (Fin n)} (h : NChain N j i l) : l.length ≤ n := by
  have := (nchain_nodup h).length_le_card
  rwa [Fintype.card_fin] at this

theorem nchain_congr {n : ℕ} {N N2 : Nxt n} {j : Fin n} :
    ∀ {i : Fin n} {l : List (Fin n)}, NChain N j i l →
      (∀ x ∈ l, N2 x j = N x j) → NChain N2 j i l := by
  intro i l h
  induction h with
  | base hne hN =>
    intro hag
    exact NChain.base hne ((hag _ (List.mem_singleton_self _)).trans hN)
  | step hne hm hmj hc ih =>
    intro hag
    exact NChain.step hne
      ((hag _ (List.mem_cons_self _ _)).trans hm) hmj
      (ih fun x hx => hag x (List.mem_cons_of_mem _ hx))

/-- `shortest_path_between`'s loop follows a pointer chain exactly. -/
theorem spbGo_of_nchain {n : ℕ} {N : Nxt n} {j : Fin n} :
    ∀ {i : Fin n} {l : List (Fin n)}, NChain N j i l →
      ∀ (fuel : ℕ) (acc : List (Fin n)), l.length + 1 ≤ fuel →
        spbGo N j fuel i acc = some (acc.reverse ++ l ++ [j]) := by
  intro i0 l h
  induction h with
  | @base i hne hN =>
    intro fuel acc hfuel
    match fuel, hfuel with
    | fuel + 2, _ =>
      rw [spbGo, if_neg hne]
      have hlt : N i j < n := by rw [hN]; exact j.isLt
      rw [dif_pos hlt]
      have hj : (⟨N i j, hlt⟩ : Fin n) = j := Fin.ext hN
      rw [hj, spbGo, if_pos rfl]
      simp
  | @step i m tl hne hm hmj hc ih =>
    intro fuel acc hfuel
    match fuel, hfuel with
    | fuel + 1, hfuel =>
      rw [spbGo, if_neg hne]
      have hlt : N i j < n := by rw [hm]; exact m.isLt
      rw [dif_pos hlt]
      have hmval : (⟨N i j, hlt⟩ : Fin n) = m := Fin.ext hm
      rw [hmval, ih fuel (i :: acc) (by
        simp only [List.length_cons] at hfuel ⊢
        omega)]
      simp

/-- The round-boundary chain invariant: for every off-diagonal finite
entry, the pointer chain from `i` reaches `j`, all nodes after `i` lie
below the pivot bound `K`, and the walk it traces has weight exactly
`D i j`. -/
def ChainInv {n : ℕ} (W0 : Mat n) (K : ℕ) (s : S1 n) : Prop :=
  ∀ i j, i ≠ j → s.D i j ≠ EF.pinf →
    ∃ ms : List (Fin n), NChain s.N j i (i :: ms) ∧
      (∀ x ∈ ms, (x : ℕ) < K) ∧
      IsWalk W0 i j ms ∧ wWeight W0 i j ms = s.D i j

theorem chainInv_init {n : ℕ} (W : Mat n) :
    ChainInv W 0 ⟨W, initNxt W⟩ := by
  intro i j hne hfin
  refine ⟨[], NChain.base hne ?_, by simp, IsWalk.single hfin, rfl⟩
  show initNxt W i j = (j : ℕ)
  unfold initNxt
  rw [if_pos hfin]

theorem EF.add_lt_add_left_fin {q : ℤ} {b c : EF} (h : EF.lt b c) :
    EF.lt (EF.add (EF.fin q) b) (EF.add (EF.fin q) c) := by
  cases b <;> cases c <;> simp_all [EF.lt, EF.add] <;> omega

theorem EF.le_antisymm {a b : EF} (h1 : EF.le a b) (h2 : EF.le b a) :
    a = b := by
  rcases h1 with h1 | rfl
  · rcases h2 with h2 | rfl
    · exact absurd (EF.lt_trans h1 h2) (EF.lt_irrefl a)
    · rfl
  · rfl

/-- After a round with nonnegative diagonals on both sides, no closed
walk with intermediates below `k + 1` has negative weight. -/
theorem no_neg_closed_walk_round {n : ℕ} {W0 : Mat n} (hW0 : MatWf W0)
    {D : Mat n} (hwf : MatWf D) {k : Fin n}
    (hkk : ¬ EF.lt (D k k) EF.zero)
    (hopt : OptTo W0 (k : ℕ) D)
    (hd2 : ∀ a, ¬ EF.lt (roundD k D a a) EF.zero) :
    ∀ (b : Fin n) (l : List (Fin n)), IsWalk W0 b b l →
      (∀ x ∈ l, (x : ℕ) < (k : ℕ) + 1) →
      ¬ EF.lt (wWeight W0 b b l) EF.zero := by
  intro b l hw hint hneg
  have hopt1 := optTo_round hW0 hwf hkk hopt
  have hle := hopt1 b b l hw hint
  have hz : EF.le EF.zero (roundD k D b b) :=
    EF.le_of_not_lt (roundD_wf hwf k b b) trivial (hd2 b)
  exact (EF.not_lt_of_le (EF.le_trans hz hle)) hneg

/-- On a round boundary, the pointer chain of a pair `(i, v)` passes
only through nodes whose own chain to `v` is the corresponding suffix,
with weight exactly the current distance entry. -/
theorem chain_suffix_value {n : ℕ} {W0 : Mat n} (hW0 : MatWf W0)
    {s : S1 n} (hwf : MatWf s.D) {k : Fin n}
    (hopt : OptTo W0 (k : ℕ) s.D) (hinv : ChainInv W0 (k : ℕ) s)
    {i v : Fin n} {ms : List (Fin n)}
    (hch : NChain s.N v i (i :: ms))
    (hbound : ∀ y ∈ ms, (y : ℕ) < (k : ℕ))
    (hwalk : IsWalk W0 i v ms)
    (hwt : wWeight W0 i v ms = s.D i v) :
    ∀ x ∈ i :: ms, ∃ ms₂ : List (Fin n),
      NChain s.N v x (x :: ms₂) ∧ (∀ y ∈ ms₂, (y : ℕ) < (k : ℕ)) ∧
      IsWalk W0 x v ms₂ ∧ wWeight W0 x v ms₂ = s.D x v ∧
      s.D x v ≠ EF.pinf ∧
      (x = i ∨ ∃ l₁, ms = l₁ ++ x :: ms₂ ∧
        wWeight W0 i v ms =
          EF.add (wWeight W0 i x l₁) (wWeight W0 x v ms₂)) := by
  intro x hx
  rcases List.mem_cons.mp hx with rfl | hx'
  · refine ⟨ms, hch, hbound, hwalk, hwt, ?_, Or.inl rfl⟩
    obtain ⟨q, hq⟩ := walk_weight_fin hW0 hwalk
    rw [← hwt, hq]
    exact fun he => EF.noConfusion he
  · obtain ⟨l₁, ms₂, heq, hch₂⟩ := nchain_suffix hch x hx
    have hxi : x ≠ i := by
      intro he
      subst he
      exact (List.nodup_cons.mp (nchain_nodup hch)).1 hx'
    cases l₁ with
    | nil =>
      exact absurd (List.head_eq_of_cons_eq heq.symm) hxi
    | cons hd l₁ =>
      have hhd : hd = i := (List.head_eq_of_cons_eq heq).symm
      subst hhd
      have hms : ms = l₁ ++ x :: ms₂ := List.tail_eq_of_cons_eq heq
      subst hms
      obtain ⟨hw1, hw2, hwsplit⟩ := walk_split hwalk
      have hbound₂ : ∀ y ∈ ms₂, (y : ℕ) < (k : ℕ) := fun y hy =>
        hbound y (List.mem_append.mpr (Or.inr (List.mem_cons_of_mem _ hy)))
      have hxv : x ≠ v := by
        intro he
        exact nchain_not_mem_target hch (he ▸ hx)
      have hle : EF.le (s.D x v) (wWeight W0 x v ms₂) :=
        hopt x v ms₂ hw2 hbound₂
      obtain ⟨q, hq⟩ := walk_weight_fin hW0 hw2
      have hfin : s.D x v ≠ EF.pinf := EF.ne_pinf_of_le_fin (hq ▸ hle)
      obtain ⟨ms', hch', _, _, hwt'⟩ := hinv x v hxv hfin
      have hlist : x :: ms₂ = x :: ms' := nchain_unique hch₂ hch'
      have hms' : ms₂ = ms' := List.tail_eq_of_cons_eq hlist
      subst hms'
      exact ⟨ms₂, hch₂, hbound₂, hw2, hwt', hfin, Or.inr ⟨l₁, rfl, hwsplit⟩⟩

/-- If the pair `(i, j)` does not fire in round `k`, no node of its
chain fires towards `j` either, so the whole chain survives the round
unchanged. -/
theorem chain_survives_no_fire {n : ℕ} {W0 : Mat n} (hW0 : MatWf W0)
    {s : S1 n} (hwf : MatWf s.D) {k : Fin n}
    (hopt : OptTo W0 (k : ℕ) s.D) (hinv : ChainInv W0 (k : ℕ) s)
    (hd1 : ∀ a, ¬ EF.lt (s.D a a) EF.zero)
    (hd2 : ∀ a, ¬ EF.lt (roundD k s.D a a) EF.zero)
    {i j : Fin n} (hne : i ≠ j) (hfin : s.D i j ≠ EF.pinf)
    (hnof : ¬ EF.lt (EF.add (s.D i k) (s.D k j)) (s.D i j)) :
    ∃ ms : List (Fin n),
      NChain (roundN k s.D s.N) j i (i :: ms) ∧
      (∀ x ∈ ms, (x : ℕ) < (k : ℕ)) ∧
      IsWalk W0 i j ms ∧ wWeight W0 i j ms = s.D i j := by
  obtain ⟨ms, hch, hbound, hwalk, hwt⟩ := hinv i j hne hfin
  have hnofire : ∀ x ∈ i :: ms,
      ¬ EF.lt (EF.add (s.D x k) (s.D k j)) (s.D x j) := by
    intro x hx hf
    rcases List.mem_cons.mp hx with rfl | hx'
    · exact hnof hf
    · have hjk : j ≠ k := by
        intro he
        rw [he] at hf
        exact EF.add_right_no_decrease (hwf x k) (hwf k k) (hd1 k) hf
      have hxk : x ≠ k := by
        intro he
        rw [he] at hf
        exact EF.add_left_no_decrease (hwf k j) (hwf k k) (hd1 k) hf
      have hdadd : EF.add (s.D x k) (s.D k j) ≠ EF.pinf :=
        fun he => EF.not_pinf_lt _ (he ▸ hf)
      obtain ⟨hxkfin, hkjfin⟩ :=
        EF.add_ne_pinf_parts (hwf x k) (hwf k j) hdadd
      obtain ⟨ms₂, hch₂, hb₂, hw₂, hwt₂, hfin₂, hdec⟩ :=
        chain_suffix_value hW0 hwf hopt hinv hch hbound hwalk hwt x hx
      rcases hdec with rfl | ⟨l₁, hmseq, hwdec⟩
      · exact (List.nodup_cons.mp (nchain_nodup hch)).1 hx'
      · obtain ⟨msxk, hchxk, hbxk, hwxk, hwtxk⟩ := hinv x k hxk hxkfin
        obtain ⟨mskj, hchkj, hbkj, hwkj, hwtkj⟩ :=
          hinv k j (fun he => hjk he.symm) hkjfin
        obtain ⟨hwdet, hwtdet⟩ := walk_append hwxk hwkj
        have hwalk' : IsWalk W0 i j (l₁ ++ x :: ms₂) := hmseq ▸ hwalk
        obtain ⟨hwpre, _, _⟩ := walk_split hwalk'
        obtain ⟨hwnew, hwtnew⟩ := walk_append hwpre hwdet
        obtain ⟨qp, hqp⟩ := walk_weight_fin hW0 hwpre
        have hsij : s.D i j = EF.add (EF.fin qp) (s.D x j) := by
          rw [← hwt, hwdec, hwt₂, hqp]
        have hstrict :
            EF.lt (wWeight W0 i j (l₁ ++ x :: (msxk ++ k :: mskj)))
              (s.D i j) := by
          rw [hwtnew, hwtdet, hwtxk, hwtkj, hqp, hsij]
          exact EF.add_lt_add_left_fin hf
        have hopt1 := optTo_round hW0 hwf (hd1 k) hopt
        have hboundms : ∀ y ∈ ms, (y : ℕ) < (k : ℕ) := hbound
        have hintnew : ∀ y ∈ l₁ ++ x :: (msxk ++ k :: mskj),
            (y : ℕ) < (k : ℕ) + 1 := by
          intro y hy
          rcases List.mem_append.mp hy with hy1 | hy2
          · have : y ∈ ms := hmseq ▸ List.mem_append.mpr (Or.inl hy1)
            exact Nat.lt_succ_of_lt (hboundms y this)
          · rcases List.mem_cons.mp hy2 with rfl | hy3
            · have : y ∈ ms := hmseq ▸
                List.mem_append.mpr (Or.inr (List.mem_cons_self _ _))
              exact Nat.lt_succ_of_lt (hboundms y this)
            · rcases List.mem_append.mp hy3 with hy4 | hy5
              · exact Nat.lt_succ_of_lt (hbxk y hy4)
              · rcases List.mem_cons.mp hy5 with rfl | hy6
                · exact Nat.lt_succ_self _
                · exact Nat.lt_succ_of_lt (hbkj y hy6)
        have hle := hopt1 i j _ hwnew hintnew
        have hrd : roundD k s.D i j = s.D i j := by
          unfold roundD
          rw [if_neg hnof]
        rw [hrd] at hle
        exact EF.not_lt_of_le hle hstrict
  refine ⟨ms, nchain_congr hch ?_, hbound, hwalk, hwt⟩
  intro x hx
  show roundN k s.D s.N x j = s.N x j
  unfold roundN
  rw [if_neg (hnofire x hx)]

/-- No node of the pivot's own chain towards `j` fires at `(b, j)`:
firing there would exhibit a negative closed walk through `k`. -/
theorem kj_chain_no_fire {n : ℕ} {W0 : Mat n} (hW0 : MatWf W0)
    {s : S1 n} (hwf : MatWf s.D) {k : Fin n}
    (hopt : OptTo W0 (k : ℕ) s.D) (hinv : ChainInv W0 (k : ℕ) s)
    (hd1 : ∀ a, ¬ EF.lt (s.D a a) EF.zero)
    (hd2 : ∀ a, ¬ EF.lt (roundD k s.D a a) EF.zero)
    {j : Fin n} (hjk : j ≠ k) (hkjfin : s.D k j ≠ EF.pinf)
    {mskj : List (Fin n)}
    (hchkj : NChain s.N j k (k :: mskj))
    (hbkj : ∀ y ∈ mskj, (y : ℕ) < (k : ℕ))
    (hwkj : IsWalk W0 k j mskj)
    (hwtkj : wWeight W0 k j mskj = s.D k j) :
    ∀ b ∈ k :: mskj, ¬ EF.lt (EF.add (s.D b k) (s.D k j)) (s.D b j) := by
  intro b hb hf
  rcases List.mem_cons.mp hb with rfl | hb'
  · exact EF.add_left_no_decrease (hwf b j) (hwf b b) (hd1 b) hf
  · have hbk : b ≠ k := by
      intro he
      exact (List.nodup_cons.mp (nchain_nodup hchkj)).1 (he ▸ hb')
    have hdadd : EF.add (s.D b k) (s.D k j) ≠ EF.pinf :=
      fun he => EF.not_pinf_lt _ (he ▸ hf)
    obtain ⟨hbkfin, _⟩ := EF.add_ne_pinf_parts (hwf b k) (hwf k j) hdadd
    obtain ⟨ms₂, hch₂, hb₂, hw₂, hwt₂, hfin₂, hdec⟩ :=
      chain_suffix_value hW0 hwf hopt hinv hchkj hbkj hwkj hwtkj b hb
    rcases hdec with rfl | ⟨pre, hmseq, hwdec⟩
    · exact hbk rfl
    · obtain ⟨msbk, hchbk, hbbk, hwbk, hwtbk⟩ := hinv b k hbk hbkfin
      have hwkj' : IsWalk W0 k j (pre ++ b :: ms₂) := hmseq ▸ hwkj
      obtain ⟨hwpre, _, _⟩ := walk_split hwkj'
      obtain ⟨hcl, hclwt⟩ := walk_append hwbk hwpre
      obtain ⟨α, hα⟩ := EF.fin_of_wf_ne_pinf (hwf b k) hbkfin
      obtain ⟨β, hβ⟩ := walk_weight_fin hW0 hwpre
      obtain ⟨γ, hγ⟩ := walk_weight_fin hW0 hw₂
      have hdbj : s.D b j = EF.fin γ := by rw [← hwt₂, hγ]
      have hdkj : s.D k j = EF.fin (β + γ) := by
        rw [← hwtkj, hwdec, hβ, hγ]
        rfl
      have hlt : α + (β + γ) < γ := by
        rw [hα, hdkj, hdbj] at hf
        exact hf
      have hclneg : EF.lt (wWeight W0 b b (msbk ++ k :: pre)) EF.zero := by
        rw [hclwt, hwtbk, hα, hβ]
        show α + β < 0
        omega
      refine no_neg_closed_walk_round hW0 hwf (hd1 k) hopt hd2 b _ hcl ?_
        hclneg
      intro y hy
      rcases List.mem_append.mp hy with hy1 | hy2
      · exact Nat.lt_succ_of_lt (hbbk y hy1)
      · rcases List.mem_cons.mp hy2 with rfl | hy3
        · exact Nat.lt_succ_self _
        · refine Nat.lt_succ_of_lt (hbkj y ?_)
          rw [hmseq]
          exact List.mem_append.mpr (Or.inl hy3)

/-- When `(i, j)` fires through pivot `k`, the target `j` cannot lie on
the chain from `i` to `k`: otherwise a negative closed walk through `k`
would exist. -/
theorem fired_pivot_chain_avoids_target {n : ℕ} {W0 : Mat n}
    (hW0 : MatWf W0) {s : S1 n} (hwf : MatWf s.D) {k : Fin n}
    (hopt : OptTo W0 (k : ℕ) s.D) (hinv : ChainInv W0 (k : ℕ) s)
    (hd1 : ∀ a, ¬ EF.lt (s.D a a) EF.zero)
    (hd2 : ∀ a, ¬ EF.lt (roundD k s.D a a) EF.zero)
    {i j : Fin n} (hne : i ≠ j)
    (hf : EF.lt (EF.add (s.D i k) (s.D k j)) (s.D i j))
    {ms₁ : List (Fin n)}
    (hch₁ : NChain s.N k i (i :: ms₁))
    (hb₁ : ∀ y ∈ ms₁, (y : ℕ) < (k : ℕ))
    (hw₁ : IsWalk W0 i k ms₁)
    (hwt₁ : wWeight W0 i k ms₁ = s.D i k) :
    j ∉ i :: ms₁ := by
  intro hmem
  have hdadd : EF.add (s.D i k) (s.D k j) ≠ EF.pinf :=
    fun he => EF.not_pinf_lt _ (he ▸ hf)
  obtain ⟨hikfin, hkjfin⟩ := EF.add_ne_pinf_parts (hwf i k) (hwf k j) hdadd
  have hjk : j ≠ k := by
    intro he
    rw [he] at hf
    exact EF.add_right_no_decrease (hwf i k) (hwf k k) (hd1 k) hf
  obtain ⟨ms₂, hch₂, hb₂, hw₂, hwt₂, hfin₂, hdec⟩ :=
    chain_suffix_value hW0 hwf hopt hinv hch₁ hb₁ hw₁ hwt₁ j hmem
  rcases hdec with rfl | ⟨pre, hmseq, hwdec⟩
  · exact hne rfl
  · have hw₁' : IsWalk W0 i k (pre ++ j :: ms₂) := hmseq ▸ hw₁
    obtain ⟨hwpre, _, _⟩ := walk_split hw₁'
    obtain ⟨β, hβ⟩ := walk_weight_fin hW0 hwpre
    have hprebound : ∀ y ∈ pre, (y : ℕ) < (k : ℕ) := by
      intro y hy
      refine hb₁ y ?_
      rw [hmseq]
      exact List.mem_append.mpr (Or.inl hy)
    have hoptij : EF.le (s.D i j) (EF.fin β) :=
      hβ ▸ hopt i j pre hwpre hprebound
    obtain ⟨δ, hδ⟩ := EF.fin_of_wf_ne_pinf (hwf i k) hikfin
    obtain ⟨ε, hε⟩ := EF.fin_of_wf_ne_pinf (hwf k j) hkjfin
    -- s.D i k = (weight of pre) + (weight of the j→k suffix)
    obtain ⟨γ, hγ⟩ := walk_weight_fin hW0 hw₂
    have hsum : δ = β + γ := by
      have : EF.fin δ = EF.fin (β + γ) := by
        rw [← hδ, ← hwt₁, hwdec, hβ, hγ]
        rfl
      exact EF.fin.inj this
    -- the fire gives δ + ε < s.D i j ≤ β, hence γ + ε < 0
    have haddfin : EF.add (s.D i k) (s.D k j) = EF.fin (δ + ε) := by
      rw [hδ, hε]
      rfl
    have hltfin : EF.lt (EF.fin (δ + ε)) (EF.fin β) :=
      EF.lt_of_lt_of_le (haddfin ▸ hf) hoptij
    have hneg : γ + ε < 0 := by
      have : δ + ε < β := hltfin
      omega
    -- closed walk at j through k
    obtain ⟨mskj, hchkj, hbkj, hwkj, hwtkj⟩ := hinv k j hjk.symm hkjfin
    obtain ⟨hcl, hclwt⟩ := walk_append hw₂ hwkj
    exact no_neg_closed_walk_round hW0 hwf (hd1 k) hopt hd2 j _ hcl
      (by
        intro y hy
        rcases List.mem_append.mp hy with hy1 | hy2
        · exact Nat.lt_succ_of_lt (hb₂ y hy1)
        · rcases List.mem_cons.mp hy2 with rfl | hy3
          · exact Nat.lt_succ_self _
          · exact Nat.lt_succ_of_lt (hbkj y hy3))
      (by
        rw [hclwt, hγ, hwtkj, hε]
        show γ + ε < 0
        exact hneg)

theorem nchain_shape {n : ℕ} {N : Nxt n} {j i : Fin n} {l : List (Fin n)}
    (h : NChain N j i l) : ∃ tl, l = i :: tl := by
  cases h with
  | base => exact ⟨[], rfl⟩
  | step _ _ _ _ => exact ⟨_, rfl⟩

/-- Descent along a fired pair's pivot chain: every node `x` of the
chain from `i` to `k` whose pair `(x, j)` fires obtains a new chain to
`j` of weight `D x k + D k j`, built by following the old chain towards
`k` and exiting into unchanged chains. -/
theorem fired_descent {n : ℕ} {W0 : Mat n} (hW0 : MatWf W0)
    {s : S1 n} (hwf : MatWf s.D) {k : Fin n}
    (hopt : OptTo W0 (k : ℕ) s.D) (hinv : ChainInv W0 (k : ℕ) s)
    (hd1 : ∀ a, ¬ EF.lt (s.D a a) EF.zero)
    (hd2 : ∀ a, ¬ EF.lt (roundD k s.D a a) EF.zero)
    {j : Fin n} (hjk : j ≠ k) (hkjfin : s.D k j ≠ EF.pinf)
    {mskj : List (Fin n)}
    (hchkj : NChain s.N j k (k :: mskj))
    (hbkj : ∀ y ∈ mskj, (y : ℕ) < (k : ℕ))
    (hwkj : IsWalk W0 k j mskj)
    (hwtkj : wWeight W0 k j mskj = s.D k j) :
    ∀ (fuel : ℕ) (x : Fin n) (rest : List (Fin n)), rest.length ≤ fuel →
      NChain s.N k x (x :: rest) →
      (∀ y ∈ rest, (y : ℕ) < (k : ℕ)) →
      IsWalk W0 x k rest →
      wWeight W0 x k rest = s.D x k →
      j ∉ x :: rest →
      EF.lt (EF.add (s.D x k) (s.D k j)) (s.D x j) →
      ∃ L : List (Fin n),
        NChain (roundN k s.D s.N) j x (x :: L) ∧
        (∀ y ∈ L, (y : ℕ) < (k : ℕ) + 1) ∧
        IsWalk W0 x j L ∧
        wWeight W0 x j L = EF.add (s.D x k) (s.D k j) := by
  have hkjsurv : NChain (roundN k s.D s.N) j k (k :: mskj) := by
    refine nchain_congr hchkj ?_
    intro b hb
    show roundN k s.D s.N b j = s.N b j
    unfold roundN
    rw [if_neg (kj_chain_no_fire hW0 hwf hopt hinv hd1 hd2 hjk hkjfin hchkj
      hbkj hwkj hwtkj b hb)]
  intro fuel
  induction fuel with
  | zero =>
    intro x rest hlen hch hb hw hwt hnm hf
    have hrest : rest = [] := List.length_eq_zero.mp (Nat.le_zero.mp hlen)
    subst hrest
    cases hch with
    | base hne hN =>
      have hxj : x ≠ j := fun he => hnm (he ▸ List.mem_cons_self _ _)
      cases hw with
      | single hedge =>
        refine ⟨k :: mskj, NChain.step hxj ?_ (Ne.symm hjk) hkjsurv, ?_, ?_,
          ?_⟩
        · show roundN k s.D s.N x j = (k : ℕ)
          unfold roundN
          rw [if_pos hf]
          exact hN
        · intro y hy
          rcases List.mem_cons.mp hy with rfl | hy'
          · exact Nat.lt_succ_self _
          · exact Nat.lt_succ_of_lt (hbkj y hy')
        · exact IsWalk.cons hedge hwkj
        · show EF.add (W0 x k) (wWeight W0 k j mskj) = _
          rw [hwtkj, show W0 x k = s.D x k from hwt]
    | step hne hm hmj hc =>
      obtain ⟨tl, htl⟩ := nchain_shape hc
      exact absurd htl (by simp)
  | succ fuel ih =>
    intro x rest hlen hch hb hw hwt hnm hf
    cases hch with
    | base hne hN =>
      -- same as the base of the zero case: chain of length one
      have hxj : x ≠ j := fun he => hnm (he ▸ List.mem_cons_self _ _)
      cases hw with
      | single hedge =>
        refine ⟨k :: mskj, NChain.step hxj ?_ (Ne.symm hjk) hkjsurv, ?_, ?_,
          ?_⟩
        · show roundN k s.D s.N x j = (k : ℕ)
          unfold roundN
          rw [if_pos hf]
          exact hN
        · intro y hy
          rcases List.mem_cons.mp hy with rfl | hy'
          · exact Nat.lt_succ_self _
          · exact Nat.lt_succ_of_lt (hbkj y hy')
        · exact IsWalk.cons hedge hwkj
        · show EF.add (W0 x k) (wWeight W0 k j mskj) = _
          rw [hwtkj, show W0 x k = s.D x k from hwt]
    | @step _ m _ hne hm hmj hc =>
      obtain ⟨rest', hrest'⟩ := nchain_shape hc
      subst hrest'
      have hxj : x ≠ j := fun he => hnm (he ▸ List.mem_cons_self _ _)
      have hmj' : m ≠ j := by
        intro he
        exact hnm (List.mem_cons_of_mem _ (he ▸ List.mem_cons_self _ _))
      cases hw with
      | cons hxm hw' =>
        -- the suffix chain weight is the current distance of (m, k)
        have hb' : ∀ y ∈ rest', (y : ℕ) < (k : ℕ) := fun y hy =>
          hb y (List.mem_cons_of_mem _ hy)
        obtain ⟨qm', hqm'⟩ := walk_weight_fin hW0 hw'
        have hmkfin : s.D m k ≠ EF.pinf :=
          EF.ne_pinf_of_le_fin (hqm' ▸ hopt m k rest' hw' hb')
        obtain ⟨ms'', hch'', _, _, hwt''⟩ := hinv m k hmj hmkfin
        have hlist : m :: rest' = m :: ms'' := nchain_unique hc hch''
        have hms'' : rest' = ms'' := List.tail_eq_of_cons_eq hlist
        subst hms''
        have hwtm : wWeight W0 m k rest' = s.D m k := hwt''
        have hstar : s.D x k = EF.add (W0 x m) (s.D m k) := by
          rw [← hwt, ← hwtm]
          rfl
        have hmlt : (m : ℕ) < (k : ℕ) := hb m (List.mem_cons_self _ _)
        have hlen' : rest'.length ≤ fuel := by
          simp only [List.length_cons] at hlen
          omega
        by_cases hfm : EF.lt (EF.add (s.D m k) (s.D k j)) (s.D m j)
        · -- the successor fires too: recurse
          obtain ⟨Lm, hchLm, hbLm, hwLm, hwtLm⟩ := ih m rest' hlen' hc hb'
            hw' hwtm (fun he => hnm (List.mem_cons_of_mem _ he)) hfm
          refine ⟨m :: Lm, NChain.step hxj ?_ hmj' hchLm, ?_, ?_, ?_⟩
          · show roundN k s.D s.N x j = (m : ℕ)
            unfold roundN
            rw [if_pos hf]
            exact hm
          · intro y hy
            rcases List.mem_cons.mp hy with rfl | hy'
            · exact Nat.lt_succ_of_lt hmlt
            · exact hbLm y hy'
          · exact IsWalk.cons hxm hwLm
          · show EF.add (W0 x m) (wWeight W0 m j Lm) = _
            rw [hwtLm, ← EF.add_assoc, ← hstar]
        · -- the successor does not fire: its old value equals the detour
          have hmjfin : s.D m j ≠ EF.pinf := by
            intro he
            obtain ⟨qmk, hqmk⟩ := EF.fin_of_wf_ne_pinf (hwf m k) hmkfin
            obtain ⟨qkj, hqkj⟩ := EF.fin_of_wf_ne_pinf (hwf k j) hkjfin
            refine hfm ?_
            rw [he, hqmk, hqkj]
            exact trivial
          have hge : ¬ EF.lt (s.D m j) (EF.add (s.D m k) (s.D k j)) := by
            intro hlt
            obtain ⟨msmj, hchmj, hbmj, hwmj, hwtmj⟩ := hinv m j hmj' hmjfin
            obtain ⟨qxm, hqxm⟩ := EF.fin_of_wf_ne_pinf (hW0 x m) hxm
            have hwalkxj : IsWalk W0 x j (m :: msmj) := IsWalk.cons hxm hwmj
            have hoptxj : EF.le (s.D x j)
                (wWeight W0 x j (m :: msmj)) := by
              refine hopt x j _ hwalkxj ?_
              intro y hy
              rcases List.mem_cons.mp hy with rfl | hy'
              · exact hmlt
              · exact hbmj y hy'
            have hwxjval : wWeight W0 x j (m :: msmj) =
                EF.add (EF.fin qxm) (s.D m j) := by
              show EF.add (W0 x m) (wWeight W0 m j msmj) = _
              rw [hwtmj, hqxm]
            have hstep1 : EF.lt (EF.add (EF.fin qxm) (s.D m j))
                (EF.add (EF.fin qxm) (EF.add (s.D m k) (s.D k j))) :=
              EF.add_lt_add_left_fin hlt
            have hstep2 : EF.add (EF.fin qxm)
                (EF.add (s.D m k) (s.D k j)) =
                EF.add (s.D x k) (s.D k j) := by
              rw [← EF.add_assoc, ← hqxm, ← hstar]
            have : EF.lt (wWeight W0 x j (m :: msmj)) (s.D x j) := by
              rw [hwxjval]
              exact EF.lt_trans (hstep2 ▸ hstep1) hf
            exact EF.not_lt_of_le hoptxj this
          have heq : s.D m j = EF.add (s.D m k) (s.D k j) :=
            EF.le_antisymm
              (EF.le_of_not_lt (EF.add_wf (hwf m k) (hwf k j)) (hwf m j) hfm)
              (EF.le_of_not_lt (hwf m j) (EF.add_wf (hwf m k) (hwf k j)) hge)
          obtain ⟨msmj, hchmj, hbmj, hwmj, hwtmj⟩ :=
            chain_survives_no_fire hW0 hwf hopt hinv hd1 hd2 hmj' hmjfin hfm
          refine ⟨m :: msmj, NChain.step hxj ?_ hmj' hchmj, ?_, ?_, ?_⟩
          · show roundN k s.D s.N x j = (m : ℕ)
            unfold roundN
            rw [if_pos hf]
            exact hm
          · intro y hy
            rcases List.mem_cons.mp hy with rfl | hy'
            · exact Nat.lt_succ_of_lt hmlt
            · exact Nat.lt_succ_of_lt (hbmj y hy')
          · exact IsWalk.cons hxm hwmj
          · show EF.add (W0 x m) (wWeight W0 m j msmj) = _
            rw [hwtmj, heq, ← EF.add_assoc, ← hstar]

/-- One textbook round preserves the chain invariant, raising the
pivot bound from `k` to `k + 1`. -/
theorem chainInv_round {n : ℕ} {W0 : Mat n} (hW0 : MatWf W0)
    {s : S1 n} (hwf : MatWf s.D) {k : Fin n}
    (hopt : OptTo W0 (k : ℕ) s.D) (hinv : ChainInv W0 (k : ℕ) s)
    (hd1 : ∀ a, ¬ EF.lt (s.D a a) EF.zero)
    (hd2 : ∀ a, ¬ EF.lt (roundD k s.D a a) EF.zero) :
    ChainInv W0 ((k : ℕ) + 1) (roundS k s) := by
  intro i j hne hfin
  by_cases hf : EF.lt (EF.add (s.D i k) (s.D k j)) (s.D i j)
  · have hik : i ≠ k := by
      intro he
      rw [he] at hf
      exact EF.add_left_no_decrease (hwf k j) (hwf k k) (hd1 k) hf
    have hjk : j ≠ k := by
      intro he
      rw [he] at hf
      exact EF.add_right_no_decrease (hwf i k) (hwf k k) (hd1 k) hf
    have hdadd : EF.add (s.D i k) (s.D k j) ≠ EF.pinf :=
      fun he => EF.not_pinf_lt _ (he ▸ hf)
    obtain ⟨hikfin, hkjfin⟩ :=
      EF.add_ne_pinf_parts (hwf i k) (hwf k j) hdadd
    obtain ⟨ms₁, hch₁, hb₁, hw₁, hwt₁⟩ := hinv i k hik hikfin
    obtain ⟨mskj, hchkj, hbkj, hwkj, hwtkj⟩ := hinv k j (Ne.symm hjk) hkjfin
    have hjnm : j ∉ i :: ms₁ :=
      fired_pivot_chain_avoids_target hW0 hwf hopt hinv hd1 hd2 hne hf
        hch₁ hb₁ hw₁ hwt₁
    obtain ⟨L, hchL, hbL, hwL, hwtL⟩ :=
      fired_descent hW0 hwf hopt hinv hd1 hd2 hjk hkjfin hchkj hbkj hwkj
        hwtkj ms₁.length i ms₁ (Nat.le_refl _) hch₁ hb₁ hw₁ hwt₁ hjnm hf
    refine ⟨L, hchL, hbL, hwL, ?_⟩
    show wWeight W0 i j L = roundD k s.D i j
    rw [hwtL]
    show EF.add (s.D i k) (s.D k j) =
      if EF.lt (EF.add (s.D i k) (s.D k j)) (s.D i j) then
        EF.add (s.D i k) (s.D k j) else s.D i j
    rw [if_pos hf]
  · have hfin' : s.D i j ≠ EF.pinf := by
      have : roundD k s.D i j = s.D i j := by
        unfold roundD
        rw [if_neg hf]
      rw [show (roundS k s).D i j = roundD k s.D i j from rfl, this] at hfin
      exact hfin
    obtain ⟨ms, hch, hb, hw, hwt⟩ :=
      chain_survives_no_fire hW0 hwf hopt hinv hd1 hd2 hne hfin' hf
    refine ⟨ms, hch, fun x hx => Nat.lt_succ_of_lt (hb x hx), hw, ?_⟩
    show wWeight W0 i j ms = roundD k s.D i j
    rw [hwt]
    show s.D i j = if EF.lt (EF.add (s.D i k) (s.D k j)) (s.D i j) then
      EF.add (s.D i k) (s.D k j) else s.D i j
    rw [if_neg hf]

/-- The chain invariant holds at every round boundary when the final
diagonal is nonnegative. -/
theorem roundsUpTo_chainInv {n : ℕ} {W : Mat n} (hW : MatWf W)
    (hdiag : ∀ a, ¬ EF.lt ((pass1 W).D a a) EF.zero) :
    ∀ m, m ≤ n → ChainInv W m (roundsUpTo W m) := by
  intro m
  induction m with
  | zero =>
    intro _
    rw [roundsUpTo_zero]
    exact chainInv_init W
  | succ k ih =>
    intro hk1
    have hk : k < n := hk1
    rw [roundsUpTo_succ_textbook hW hdiag k hk]
    have hd2 : ∀ a,
        ¬ EF.lt (roundD ⟨k, hk⟩ (roundsUpTo W k).D a a) EF.zero := by
      have h := roundsUpTo_diag hdiag (k + 1)
      rw [roundsUpTo_succ_textbook hW hdiag k hk] at h
      exact h
    exact chainInv_round hW (roundsUpTo_wf hW k)
      (roundsUpTo_opt hW hdiag k (Nat.le_of_lt hk)) (ih (Nat.le_of_lt hk))
      (roundsUpTo_diag hdiag k) hd2

/-- The chain invariant for the full first pass. -/
theorem pass1_chainInv {n : ℕ} {W : Mat n} (hW : MatWf W)
    (hdiag : ∀ a, ¬ EF.lt ((pass1 W).D a a) EF.zero) :
    ChainInv W n (pass1 W) := by
  have h := roundsUpTo_chainInv hW hdiag n (Nat.le_refl n)
  rwa [roundsUpTo_full] at h

/-- With a nonnegative final diagonal, the distance matrix is entirely
finite exactly when the graph is strongly connected and every node lies
on a cycle. -/
theorem allFinite_iff {n : ℕ} {W : Mat n} (hW : MatWf W)
    (hdiag : ∀ a, ¬ EF.lt ((pass1 W).D a a) EF.zero) :
    (∀ i j : Fin n, (pass1 W).D i j ≠ EF.pinf) ↔
      StronglyConnected W ∧ ∀ i, NodeOnCycle W i := by
  constructor
  · intro h
    constructor
    · intro i j _
      obtain ⟨l, hw, _⟩ := pass1_LB hW i j (h i j)
      exact ⟨l, hw⟩
    · intro i
      obtain ⟨l, hw, _⟩ := pass1_LB hW i i (h i i)
      exact ⟨l, hw⟩
  · intro ⟨hsc, hcy⟩ i j
    by_cases hij : i = j
    · subst hij
      obtain ⟨l, hw⟩ := hcy i
      obtain ⟨q, hq⟩ := walk_weight_fin hW hw
      exact EF.ne_pinf_of_le_fin (hq ▸ pass1_opt_all hW hdiag i i l hw)
    · obtain ⟨l, hw⟩ := hsc i j hij
      obtain ⟨q, hq⟩ := walk_weight_fin hW hw
      exact EF.ne_pinf_of_le_fin (hq ▸ pass1_opt_all hW hdiag i j l hw)

/-- `CppSolver::solvable` in graph-theoretic terms: the gate passes
exactly for strongly connected, cycle-covered, negative-cycle-free
weight matrices. -/
theorem solvable_iff {g : Graph} (hwf : MatWf g.W) :
    solvable (newSolver g) = true ↔
      StronglyConnected g.W ∧ (∀ i, NodeOnCycle g.W i) ∧
        ¬ HasNegCycle g.W := by
  show (graphIsStronglyConnected (fwNew g.W) &&
    graphHasNoNegativeCycle (fwNew g.W)) = true ↔ _
  cases hflag : (fwNew g.W).flag with
  | true =>
    have hneg : HasNegCycle g.W :=
      (negCycle_iff_neg_diag hwf).mpr ((flag_iff_neg_diag hwf).mp hflag)
    constructor
    · intro h
      rw [Bool.and_eq_true] at h
      have : (! (fwNew g.W).flag) = true := h.2
      rw [hflag] at this
      exact absurd this (by simp)
    · intro ⟨_, _, hno⟩
      exact absurd hneg hno
  | false =>
    have hdiag : ∀ a, ¬ EF.lt ((pass1 g.W).D a a) EF.zero := by
      intro a ha
      have := (flag_iff_neg_diag hwf).mpr ⟨a, ha⟩
      rw [hflag] at this
      exact absurd this (by simp)
    have hnoneg : ¬ HasNegCycle g.W := by
      intro hneg
      obtain ⟨a, ha⟩ := (negCycle_iff_neg_diag hwf).mp hneg
      exact hdiag a ha
    have hD2 : (fwNew g.W).D = (pass1 g.W).D :=
      (pass2_flag_false_state (pass1 g.W) hflag).1
    constructor
    · intro h
      rw [Bool.and_eq_true] at h
      have hsc : (∀ i j : Fin g.n, (fwNew g.W).D i j ≠ EF.pinf) :=
        of_decide_eq_true h.1
      rw [hD2] at hsc
      obtain ⟨h1, h2⟩ := (allFinite_iff hwf hdiag).mp hsc
      exact ⟨h1, h2, hnoneg⟩
    · intro ⟨h1, h2, _⟩
      rw [Bool.and_eq_true]
      constructor
      · apply decide_eq_true
        rw [hD2]
        exact fun i j => (allFinite_iff hwf hdiag).mpr ⟨h1, h2⟩ i j
      · show (! (fwNew g.W).flag) = true
        rw [hflag]
        rfl

/-- Every row-finite entry is counted once as an out-edge and once as an
in-edge, so the signed imbalances sum to zero and the two imbalance
multisets have the same size. -/
theorem imbalance_lengths_eq (g : Graph) :
    (imbalancedNodes g).negative.length =
      (imbalancedNodes g).positive.length := by
  have e1 : (imbalancedNodes g).negative.length =
      ∑ v : Fin g.n,
        (if outInDiff g.W v < 0 then (-(outInDiff g.W v)).toNat else 0) := by
    show ((List.finRange g.n).flatMap _).length = _
    rw [List.length_flatMap, ← Fin.sum_univ_def]
    refine Finset.sum_congr rfl ?_
    intro v _
    by_cases h : outInDiff g.W v < 0 <;> simp [h]
  have e2 : (imbalancedNodes g).positive.length =
      ∑ v : Fin g.n,
        (if 0 < outInDiff g.W v then (outInDiff g.W v).toNat else 0) := by
    show ((List.finRange g.n).flatMap _).length = _
    rw [List.length_flatMap, ← Fin.sum_univ_def]
    refine Finset.sum_congr rfl ?_
    intro v _
    by_cases h : 0 < outInDiff g.W v <;> simp [h]
  have hcount :
      (∑ v : Fin g.n,
        (Finset.univ.filter fun j => g.W v j ≠ EF.pinf).card) =
      ∑ v : Fin g.n,
        (Finset.univ.filter fun i => g.W i v ≠ EF.pinf).card := by
    simp only [Finset.card_filter]
    rw [Finset.sum_comm]
  have hzero : ∑ v : Fin g.n, outInDiff g.W v = 0 := by
    unfold outInDiff
    rw [Finset.sum_sub_distrib]
    have hc1 : ∑ v : Fin g.n,
        ((Finset.univ.filter fun j => g.W v j ≠ EF.pinf).card : ℤ) =
        ((∑ v : Fin g.n,
          (Finset.univ.filter fun j => g.W v j ≠ EF.pinf).card : ℕ) : ℤ) := by
      push_cast
      rfl
    have hc2 : ∑ v : Fin g.n,
        ((Finset.univ.filter fun i => g.W i v ≠ EF.pinf).card : ℤ) =
        ((∑ v : Fin g.n,
          (Finset.univ.filter fun i => g.W i v ≠ EF.pinf).card : ℕ) : ℤ) := by
      push_cast
      rfl
    rw [hc1, hc2, hcount]
    omega
  have key : ∀ v : Fin g.n,
      ((if 0 < outInDiff g.W v then (outInDiff g.W v).toNat else 0 : ℕ) : ℤ) -
        ((if outInDiff g.W v < 0 then (-(outInDiff g.W v)).toNat else 0 : ℕ)
          : ℤ) = outInDiff g.W v := by
    intro v
    rcases lt_trichotomy (outInDiff g.W v) 0 with h | h | h
    · rw [if_neg (by omega), if_pos h, Int.toNat_of_nonneg (by omega)]
      simp
    · rw [h]
      simp
    · rw [if_pos h, if_neg (by omega), Int.toNat_of_nonneg (by omega)]
      simp
  have hdiff :
      (∑ v : Fin g.n,
        ((if 0 < outInDiff g.W v then (outInDiff g.W v).toNat else 0 : ℕ)
          : ℤ)) -
      (∑ v : Fin g.n,
        ((if outInDiff g.W v < 0 then (-(outInDiff g.W v)).toNat else 0 : ℕ)
          : ℤ)) = 0 := by
    rw [← Finset.sum_sub_distrib, Finset.sum_congr rfl fun v _ => key v,
      hzero]
  rw [e1, e2]
  have hcasteq :
      ((∑ v : Fin g.n,
        (if outInDiff g.W v < 0 then (-(outInDiff g.W v)).toNat else 0)
          : ℕ) : ℤ) =
      ((∑ v : Fin g.n,
        (if 0 < outInDiff g.W v then (outInDiff g.W v).toNat else 0)
          : ℕ) : ℤ) := by
    rw [Nat.cast_sum, Nat.cast_sum]
    omega
  exact_mod_cast hcasteq

/-- Members of the deficit multiset have negative out-in difference. -/
theorem neg_mem {g : Graph} {u : Fin g.n}
    (h : u ∈ (imbalancedNodes g).negative) : outInDiff g.W u < 0 := by
  have h' : u ∈ (List.finRange g.n).flatMap fun v =>
      if outInDiff g.W v < 0 then
        List.replicate (-(outInDiff g.W v)).toNat v
      else [] := h
  rw [List.mem_flatMap] at h'
  obtain ⟨v, _, hv⟩ := h'
  by_cases hd : outInDiff g.W v < 0
  · rw [if_pos hd] at hv
    rw [List.eq_of_mem_replicate hv]
    exact hd
  · rw [if_neg hd] at hv
    exact absurd hv (List.not_mem_nil u)

/-- Members of the surplus multiset have positive out-in difference. -/
theorem pos_mem {g : Graph} {v : Fin g.n}
    (h : v ∈ (imbalancedNodes g).positive) : 0 < outInDiff g.W v := by
  have h' : v ∈ (List.finRange g.n).flatMap fun u =>
      if 0 < outInDiff g.W u then
        List.replicate (outInDiff g.W u).toNat u
      else [] := h
  rw [List.mem_flatMap] at h'
  obtain ⟨u, _, hu⟩ := h'
  by_cases hd : 0 < outInDiff g.W u
  · rw [if_pos hd] at hu
    rw [List.eq_of_mem_replicate hu]
    exact hd
  · rw [if_neg hd] at hu
    exact absurd hu (List.not_mem_nil v)

theorem mapInsert_mem {α β : Type} [DecidableEq α] :
    ∀ (m : List (α × β)) (k : α) (v : β) (p : α × β),
      p ∈ mapInsert m k v → p = (k, v) ∨ p ∈ m := by
  intro m
  induction m with
  | nil =>
    intro k v p hp
    exact Or.inl (List.mem_singleton.mp hp)
  | cons e rest ih =>
    intro k v p hp
    obtain ⟨k', v'⟩ := e
    have hp2 : p ∈ (if k' = k then (k', v) :: rest else
      (k', v') :: mapInsert rest k v) := hp
    by_cases hk : k' = k
    · rw [if_pos hk] at hp2
      rcases List.mem_cons.mp hp2 with rfl | hp'
      · exact Or.inl (by rw [hk])
      · exact Or.inr (List.mem_cons_of_mem _ hp')
    · rw [if_neg hk] at hp2
      rcases List.mem_cons.mp hp2 with rfl | hp'
      · exact Or.inr (List.mem_cons_self _ _)
      · rcases ih k v p hp' with h | h
        · exact Or.inl h
        · exact Or.inr (List.mem_cons_of_mem _ h)

theorem foldl_mapInsert_mem {α β γ : Type} [DecidableEq α]
    (f1 : γ → α) (f2 : γ → β) :
    ∀ (l : List γ) (m0 : List (α × β)) (p : α × β),
      p ∈ l.foldl (fun m ra => mapInsert m (f1 ra) (f2 ra)) m0 →
        p ∈ m0 ∨ ∃ ra ∈ l, p = (f1 ra, f2 ra) := by
  intro l
  induction l with
  | nil =>
    intro m0 p hp
    exact Or.inl hp
  | cons a l ih =>
    intro m0 p hp
    rw [List.foldl_cons] at hp
    rcases ih _ p hp with hp' | ⟨ra, hra, rfl⟩
    · rcases mapInsert_mem _ _ _ _ hp' with rfl | hp''
      · exact Or.inr ⟨a, List.mem_cons_self _ _, rfl⟩
      · exact Or.inl hp''
    · exact Or.inr ⟨ra, List.mem_cons_of_mem _ hra, rfl⟩

/-- The value-projection map written with a coercion equals the plain
`Fin.val` map (the coercion elaborates through the list monad). -/
theorem mapVal_eq {n : ℕ} (l : List (Fin n)) :
    (l.map fun x => (x : ℕ)) = l.map Fin.val := by
  induction l with
  | nil => rfl
  | cons a l ih =>
    show (a : ℕ) :: (l.map fun x => (x : ℕ)) = (a : ℕ) :: l.map Fin.val
    rw [ih]

/-- When the two imbalance multisets have equal size, every matched pair
produced by `best_match` joins a deficit node to a surplus node. -/
theorem bestMatch_mem {n : ℕ} (imb : ImbalancedNodeSet n) (D : Mat n)
    (hlen : imb.negative.length = imb.positive.length) :
    ∀ p ∈ bestMatch imb D,
      (∃ u ∈ imb.negative, p.1 = (u : ℕ)) ∧
        ∃ v ∈ imb.positive, p.2 = (v : ℕ) := by
  intro p hp
  have hng : ¬ ((imb.negative.map fun x => (x : ℕ)).length >
      (imb.positive.map fun x => (x : ℕ)).length) := by
    rw [mapVal_eq, mapVal_eq, List.length_map, List.length_map, hlen]
    omega
  simp only [bestMatch, if_neg hng, List.foldl_nil] at hp
  rw [mapVal_eq imb.negative, mapVal_eq imb.positive] at hp
  rcases foldl_mapInsert_mem _ _ _ _ p hp with hpm | ⟨ra, hra, rfl⟩
  · exact absurd hpm (List.not_mem_nil p)
  · obtain ⟨h1, h2⟩ := List.of_mem_zip hra
    have hr1 : ra.1 < imb.negative.length := by
      have hm := List.mem_of_mem_filter h1
      rw [List.mem_range] at hm
      simpa using hm
    constructor
    · have hlt : ra.1 < (imb.negative.map Fin.val).length := by
        simpa using hr1
      rw [List.getD_eq_getElem _ _ hlt, List.getElem_map]
      exact ⟨imb.negative[ra.1], List.getElem_mem hr1, rfl⟩
    · have hlt2 : (ra.2 : ℕ) < (imb.positive.map Fin.val).length := by
        simpa using ra.2.isLt
      have hlt2' : (ra.2 : ℕ) < imb.positive.length := by
        simpa using hlt2
      rw [List.getD_eq_getElem _ _ hlt2, List.getElem_map]
      exact ⟨imb.positive[(ra.2 : ℕ)], List.getElem_mem hlt2', rfl⟩

/-- After a passed gate, `shortest_path_between` terminates with fuel
`n + 1`: the pointer chain visits pairwise-distinct nodes. -/
theorem spb_some_of_gate {n : ℕ} {W : Mat n} (hW : MatWf W)
    (hdiag : ∀ a, ¬ EF.lt ((pass1 W).D a a) EF.zero)
    (hfin : ∀ i j : Fin n, (pass1 W).D i j ≠ EF.pinf)
    {u v : Fin n} (hne : u ≠ v) :
    ∃ pathL, spb (pass1 W).N u v (n + 1) = some pathL := by
  obtain ⟨ms, hch, _, _, _⟩ := pass1_chainInv hW hdiag u v hne (hfin u v)
  have hlen := nchain_length_le hch
  refine ⟨_, spbGo_of_nchain hch (n + 1) [] ?_⟩
  simp only [List.length_cons] at hlen ⊢
  omega

theorem addPathEdges_pres {n : ℕ} (P : Graph → Prop)
    (hP : ∀ (g : Graph) (f t : Fin g.n) (w : EF), P g →
      P (addGraphEdge g f t w)) :
    ∀ (l : List (Fin n)) (gp : GraphAt n), P gp.val →
      P (addPathEdges gp l).val := by
  intro l
  induction l with
  | nil => intro gp h; exact h
  | cons a tl ih =>
    intro gp h
    cases tl with
    | nil => exact h
    | cons b rest =>
      show P (addPathEdges ⟨addGraphEdge gp.val _ _ _, gp.property⟩
        (b :: rest)).val
      exact ih _ (hP _ _ _ _ h)

/-- Any graph property preserved by `add_edge` survives `balance_node`. -/
theorem balanceNode_pres (P : Graph → Prop)
    (hP : ∀ (g : Graph) (f t : Fin g.n) (w : EF), P g →
      P (addGraphEdge g f t w))
    {s s1 : Solver} (hb : balanceNode s = some s1) (hs : P s.graph) :
    P s1.graph := by
  simp only [balanceNode] at hb
  by_cases hemp : imbalancedIsEmpty (imbalancedNodes s.graph) = true
  · rw [if_pos hemp] at hb
    obtain rfl := Option.some.inj hb
    exact hs
  · rw [if_neg hemp] at hb
    set step := fun (acc : Option (GraphAt s.graph.n))
        (fromTo : ℕ × ℕ) =>
      acc.bind fun gp =>
        if hf : fromTo.1 < s.graph.n then
          if ht : fromTo.2 < s.graph.n then
            match spb s.fw.N ⟨fromTo.1, hf⟩ ⟨fromTo.2, ht⟩
                (s.graph.n + 1) with
            | none => none
            | some pathL => some (addPathEdges gp pathL)
          else none
        else none with hstep
    have hinv : ∀ gp, (bestMatch (imbalancedNodes s.graph) s.fw.D).foldl
        step (some ⟨s.graph, rfl⟩) = some gp → P gp.val := by
      refine foldl_invariant step
        (fun acc => ∀ gp, acc = some gp → P gp.val) _ _ ?_ ?_
      · intro acc b _ hPa gp hgp
        cases acc with
        | none => exact absurd hgp (by simp [hstep])
        | some gp0 =>
          rw [hstep] at hgp
          simp only [Option.some_bind] at hgp
          by_cases hf : b.1 < s.graph.n
          · rw [dif_pos hf] at hgp
            by_cases ht : b.2 < s.graph.n
            · rw [dif_pos ht] at hgp
              cases hspb : spb s.fw.N ⟨b.1, hf⟩ ⟨b.2, ht⟩
                  (s.graph.n + 1) with
              | none => rw [hspb] at hgp; exact absurd hgp (by simp)
              | some pathL =>
                rw [hspb] at hgp
                obtain rfl := Option.some.inj hgp
                exact addPathEdges_pres P hP pathL gp0 (hPa gp0 rfl)
            · rw [dif_neg ht] at hgp
              exact absurd hgp (by simp)
          · rw [dif_neg hf] at hgp
            exact absurd hgp (by simp)
      · intro gp hgp
        obtain rfl := Option.some.inj hgp
        exact hs
    cases hres : (bestMatch (imbalancedNodes s.graph) s.fw.D).foldl step
        (some ⟨s.graph, rfl⟩) with
    | none =>
      rw [hres] at hb
      exact absurd hb (by simp)
    | some gp =>
      rw [hres] at hb
      simp only [Option.map_some'] at hb
      obtain rfl := Option.some.inj hb
      exact hinv gp hres

/-- `from_weight_matrix` caches consistent out-degrees. -/
theorem fromWeightMatrix_outDeg (n : ℕ) (W : Mat n)
    (lab : Option (List String)) :
    ∀ i, (fromWeightMatrix n W lab).outDeg i =
      outC (fromWeightMatrix n W lab) i := by
  intro i
  show wOutDeg W i = Finset.univ.sum fun j => computeEdgeCounts W i j
  unfold wOutDeg computeEdgeCounts
  exact Finset.card_filter _ _

/-- `add_edge` keeps the cached out-degrees consistent with the counts. -/
theorem addGraphEdge_outDeg (g : Graph) (f t : Fin g.n) (w : EF)
    (h : ∀ i, g.outDeg i = outC g i) :
    ∀ i, (addGraphEdge g f t w).outDeg i = outC (addGraphEdge g f t w) i := by
  intro i
  show (if i = f then g.outDeg i + 1 else g.outDeg i) =
    Finset.univ.sum fun j =>
      if i = f ∧ j = t then g.C i j + 1 else g.C i j
  have hsum : (Finset.univ.sum fun j =>
      if i = f ∧ j = t then g.C i j + 1 else g.C i j) =
      (Finset.univ.sum fun j => g.C i j) + if i = f then 1 else 0 := by
    by_cases hif : i = f
    · have : ∀ j : Fin g.n,
          (if i = f ∧ j = t then g.C i j + 1 else g.C i j) =
            g.C i j + (if j = t then 1 else 0) := by
        intro j
        by_cases hjt : j = t
        · rw [if_pos ⟨hif, hjt⟩, if_pos hjt]
        · rw [if_neg (fun hc => hjt hc.2), if_neg hjt]
          rfl
      rw [Finset.sum_congr rfl fun j _ => this j, Finset.sum_add_distrib,
        Finset.sum_ite_eq' Finset.univ t fun _ => 1, if_pos hif,
        if_pos (Finset.mem_univ t)]
    · have : ∀ j : Fin g.n,
          (if i = f ∧ j = t then g.C i j + 1 else g.C i j) = g.C i j := by
        intro j
        rw [if_neg (fun hc => hif hc.1)]
      rw [Finset.sum_congr rfl fun j _ => this j, if_neg hif]
      rfl
  rw [hsum,
    show (Finset.univ.sum fun j => g.C i j) = g.outDeg i from (h i).symm]
  by_cases hif : i = f
  · rw [if_pos hif, if_pos hif]
  · rw [if_neg hif, if_neg hif]
    rfl

/-- After a passed gate, `balance_node` returns a new solver: every
matched pair is in range, distinct, and its path reconstruction
terminates. -/
theorem balanceNode_some (s : Solver) (hwf : MatWf s.graph.W)
    (hNfw : s.fw.N = (pass1 s.graph.W).N)
    (hdiag : ∀ a, ¬ EF.lt ((pass1 s.graph.W).D a a) EF.zero)
    (hfin : ∀ i j : Fin s.graph.n, (pass1 s.graph.W).D i j ≠ EF.pinf) :
    ∃ s1, balanceNode s = some s1 := by
  simp only [balanceNode]
  by_cases hemp : imbalancedIsEmpty (imbalancedNodes s.graph) = true
  · rw [if_pos hemp]
    exact ⟨_, rfl⟩
  · rw [if_neg hemp]
    set step := fun (acc : Option (GraphAt s.graph.n)) (fromTo : ℕ × ℕ) =>
      acc.bind fun gp =>
        if hf : fromTo.1 < s.graph.n then
          if ht : fromTo.2 < s.graph.n then
            match spb s.fw.N ⟨fromTo.1, hf⟩ ⟨fromTo.2, ht⟩
                (s.graph.n + 1) with
            | none => none
            | some pathL => some (addPathEdges gp pathL)
          else none
        else none with hstep
    have hfold : (bestMatch (imbalancedNodes s.graph) s.fw.D).foldl step
        (some ⟨s.graph, rfl⟩) ≠ none := by
      refine foldl_invariant step (fun acc => acc ≠ none) _ _ ?_ (by simp)
      intro acc b hbmem hne'
      cases acc with
      | none => exact absurd rfl hne'
      | some gp0 =>
        rw [hstep]
        simp only [Option.some_bind]
        obtain ⟨⟨u, hu, hbu⟩, v, hv, hbv⟩ :=
          bestMatch_mem _ _ (imbalance_lengths_eq s.graph) b hbmem
        have hf : b.1 < s.graph.n := hbu ▸ u.isLt
        have ht : b.2 < s.graph.n := hbv ▸ v.isLt
        rw [dif_pos hf, dif_pos ht]
        have huv : (⟨b.1, hf⟩ : Fin s.graph.n) ≠ ⟨b.2, ht⟩ := by
          intro he
          have h1 := neg_mem hu
          have h2 := pos_mem hv
          have huv2 : u = v := by
            apply Fin.ext
            rw [← hbu, ← hbv]
            exact congrArg Fin.val he
          rw [huv2] at h1
          omega
        obtain ⟨pathL, hspb⟩ := spb_some_of_gate hwf hdiag hfin huv
        rw [hNfw, hspb]
        simp
    cases hres : (bestMatch (imbalancedNodes s.graph) s.fw.D).foldl step
        (some ⟨s.graph, rfl⟩) with
    | none => exact absurd hres hfold
    | some gp => exact ⟨_, rfl⟩

/-- A list of naturals below `n` has length equal to the sum of its
per-value counts. -/
theorem length_eq_sum_count {n : ℕ} :
    ∀ (l : List ℕ), (∀ x ∈ l, x < n) →
      l.length = ∑ j : Fin n, l.count (j : ℕ) := by
  intro l
  induction l with
  | nil => simp
  | cons x l ih =>
    intro hb
    have hx : x < n := hb x (List.mem_cons_self _ _)
    have hsum : ∀ j : Fin n, (x :: l).count (j : ℕ) =
        l.count (j : ℕ) + if (j : ℕ) = x then 1 else 0 := by
      intro j
      rw [List.count_cons]
      congr 1
      by_cases h : (j : ℕ) = x
      · rw [if_pos h, if_pos (by exact beq_iff_eq.mpr h.symm)]
      · rw [if_neg h, if_neg (by
          intro hc
          exact h (beq_iff_eq.mp hc).symm)]
    rw [List.length_cons,
      Finset.sum_congr rfl (fun j _ => hsum j), Finset.sum_add_distrib,
      ← ih (fun y hy => hb y (List.mem_cons_of_mem _ hy))]
    have hone : ∀ j : Fin n, (if (j : ℕ) = x then 1 else 0) =
        if j = ⟨x, hx⟩ then (1 : ℕ) else 0 := by
      intro j
      by_cases h : (j : ℕ) = x
      · rw [if_pos h, if_pos (Fin.ext h)]
      · rw [if_neg h, if_neg (fun hc => h (congrArg Fin.val hc))]
    rw [Finset.sum_congr rfl (fun j _ => hone j),
      Finset.sum_ite_eq' Finset.univ (⟨x, hx⟩ : Fin n) fun _ => (1 : ℕ),
      if_pos (Finset.mem_univ _)]

/-- In-range successor lists convert successfully to `Fin` form. -/
theorem toFinList_some {n : ℕ} :
    ∀ (l : List ℕ), (∀ x ∈ l, x < n) →
      ∃ lf, toFinList n l = some lf ∧ lf.map Fin.val = l := by
  intro l
  induction l with
  | nil => exact fun _ => ⟨[], rfl, rfl⟩
  | cons x l ih =>
    intro hb
    obtain ⟨lf, hlf, hmap⟩ := ih (fun y hy => hb y (List.mem_cons_of_mem _ hy))
    have hx : x < n := hb x (List.mem_cons_self _ _)
    refine ⟨⟨x, hx⟩ :: lf, ?_, ?_⟩
    · show List.foldr _ _ (x :: l) = _
      rw [List.foldr_cons, show List.foldr _ _ l = some lf from hlf,
        Option.some_bind, dif_pos hx]
    · show x :: lf.map Fin.val = x :: l
      rw [hmap]

/-- `mapM` of in-range successor lists succeeds, with each slot holding
the `Fin` image of the corresponding successor list. -/
theorem mapM_toFinList {n : ℕ} (f : ℕ → List ℕ) :
    ∀ (l : List (Fin n)), (∀ v ∈ l, ∀ x ∈ f (v : ℕ), x < n) →
      ∃ ls, (l.mapM fun i => toFinList n (f i.val)) = some ls ∧
        List.Forall₂ (fun (v : Fin n) (lf : List (Fin n)) =>
          lf.map Fin.val = f (v : ℕ)) l ls := by
  intro l
  induction l with
  | nil => exact fun _ => ⟨[], rfl, List.Forall₂.nil⟩
  | cons a l ih =>
    intro hb
    obtain ⟨ls, hls, hfa⟩ := ih (fun v hv => hb v (List.mem_cons_of_mem _ hv))
    obtain ⟨lf, hlf, hmap⟩ :=
      toFinList_some (f (a : ℕ)) (hb a (List.mem_cons_self _ _))
    refine ⟨lf :: ls, ?_, List.Forall₂.cons hmap hfa⟩
    rw [List.mapM_cons, hlf, hls]
    rfl

/-- Popping one successor decrements the total remaining out-degree. -/
theorem sum_outs_decrement {n : ℕ} (outs : Fin n → ℕ) (x : Fin n)
    (hpos : 0 < outs x) :
    (Finset.univ.sum fun v => if v = x then outs x - 1 else outs v) + 1 =
      Finset.univ.sum outs := by
  rw [Finset.sum_eq_sum_diff_singleton_add (Finset.mem_univ x)
      (fun v => if v = x then outs x - 1 else outs v),
    Finset.sum_eq_sum_diff_singleton_add (Finset.mem_univ x) outs]
  have hcongr : (∑ v ∈ Finset.univ \ {x},
      (if v = x then outs x - 1 else outs v)) =
      ∑ v ∈ Finset.univ \ {x}, outs v := by
    refine Finset.sum_congr rfl ?_
    intro v hv
    rw [Finset.mem_sdiff, Finset.mem_singleton] at hv
    rw [if_neg hv.2]
  rw [hcongr, show (if x = x then outs x - 1 else outs x) = outs x - 1
    from if_pos rfl]
  omega

/-- The `find_path` loop terminates whenever the fuel covers the loop
measure `2 * (remaining out-degree) + stack size`, provided the cached
out-degrees agree with the successor-list lengths. -/
theorem findPathGo_terminates {n : ℕ} :
    ∀ (fuel : ℕ) (edges : Fin n → List (Fin n)) (outs : Fin n → ℕ)
      (stack path : List (Fin n)),
      (∀ v, (edges v).length = outs v) →
      2 * (Finset.univ.sum outs) + stack.length ≤ fuel →
      ∃ res, findPathGo fuel edges outs stack path = some res := by
  intro fuel
  induction fuel with
  | zero =>
    intro edges outs stack path _ hm
    cases stack with
    | nil => exact ⟨path, rfl⟩
    | cons a rest => simp [List.length_cons] at hm
  | succ fuel ih =>
    intro edges outs stack path hinv hm
    cases stack with
    | nil => exact ⟨path, rfl⟩
    | cons node rest =>
      by_cases houts : outs node > 0
      · have hne : edges node ≠ [] := by
          intro he
          rw [← hinv node, he] at houts
          simp at houts
        obtain ⟨nxt, hnxt⟩ :=
          Option.isSome_iff_exists.mp (List.getLast?_isSome.mpr hne)
        show ∃ res, findPathGo (fuel + 1) edges outs (node :: rest) path =
          some res
        rw [findPathGo, if_pos houts, hnxt]
        refine ih _ _ _ _ ?_ ?_
        · intro v
          by_cases hv : v = node
          · rw [if_pos hv, if_pos hv, List.length_dropLast, hinv node]
          · rw [if_neg hv, if_neg hv, hinv v]
        · have hdec := sum_outs_decrement outs node houts
          simp only [List.length_cons] at hm ⊢
          omega
      · show ∃ res, findPathGo (fuel + 1) edges outs (node :: rest) path =
          some res
        rw [findPathGo, if_neg houts]
        refine ih _ _ _ _ hinv ?_
        simp only [List.length_cons] at hm
        omega

/-- `HierholzerRunner::run` succeeds on every consistent graph whose
successor-list oracle matches the edge counts. -/
theorem hierRun_some (g : Graph) (h0 : 0 < g.n) (ord : Ord)
    (hord : ordWf g ord) (hcons : ∀ i, g.outDeg i = outC g i) :
    ∃ pathL, hierRun g ord = some pathL := by
  have hlen : ∀ i : Fin g.n, (ord (i : ℕ)).length = g.outDeg i := by
    intro i
    obtain ⟨hrange, hcount⟩ := hord i
    rw [length_eq_sum_count (ord (i : ℕ)) hrange, hcons i]
    exact Finset.sum_congr rfl fun j _ => hcount j
  have hE : isEulerianChk g ord = true := decide_eq_true hlen
  obtain ⟨ls, hls, hfa⟩ :=
    mapM_toFinList ord (List.finRange g.n) (fun v _ => (hord v).1)
  unfold hierRun
  rw [if_pos hE, dif_pos h0, hls]
  have hedge : ∀ v : Fin g.n,
      ((fun v : Fin g.n => ls.getD (v : ℕ) []) v).length = g.outDeg v := by
    intro v
    obtain ⟨hlen2, hget⟩ := List.forall₂_iff_get.mp hfa
    have hvlt : (v : ℕ) < ls.length := by
      rw [← hlen2, List.length_finRange]
      exact v.isLt
    have hvlt1 : (v : ℕ) < (List.finRange g.n).length := by
      rw [List.length_finRange]
      exact v.isLt
    have hR := hget (v : ℕ) hvlt1 hvlt
    have hfr : (List.finRange g.n).get ⟨(v : ℕ), hvlt1⟩ = v := by
      rw [List.get_finRange]
    rw [hfr] at hR
    show (ls.getD (v : ℕ) []).length = g.outDeg v
    rw [List.getD_eq_getElem _ _ hvlt]
    have hl : (ls[(v : ℕ)].map Fin.val).length = (ord (v : ℕ)).length := by
      rw [show ls[(v : ℕ)] = ls.get ⟨(v : ℕ), hvlt⟩ from rfl, hR]
    rw [List.length_map] at hl
    rw [hl, hlen v]
  obtain ⟨res, hres⟩ := findPathGo_terminates (hierFuel g) _ g.outDeg
    [⟨0, h0⟩] [] hedge (by
      show 2 * Finset.univ.sum g.outDeg + 1 ≤ hierFuel g
      unfold hierFuel
      exact Nat.le_refl _)
  exact ⟨res, hres⟩

/-- A single node with no edges at all. -/
def isolatedG : Graph := fromWeightMatrix 1 (fun _ _ => EF.pinf) none

/-- Counterexample to C2 as claimed: the one-node edgeless graph is
strongly connected (there is no ordered pair of distinct nodes) and has
no negative cycle, yet `solve` returns "no solution", because the
distance matrix keeps `D[0][0] = inf` and the strong-connectivity probe
requires every entry — including the diagonal — to be finite. -/
theorem solve_rejects_isolated_single_node :
    StronglyConnected isolatedG.W ∧ ¬ HasNegCycle isolatedG.W ∧
      (solveS (newSolver isolatedG) (canonOrd isolatedG)).1 =
        SolveResult.noSolution := by
  refine ⟨?_, ?_, by decide⟩
  · intro i j hne
    have h1 : (i : ℕ) < 1 := i.isLt
    have h2 : (j : ℕ) < 1 := j.isLt
    exact absurd (Fin.ext (by omega)) hne
  · intro ⟨i, l, hw, _⟩
    cases hw with
    | single hedge => exact hedge rfl
    | cons hedge _ => exact hedge rfl

/-- C2 (amended): `solve` answers "no solution" iff the graph is not
strongly connected, or has a negative cycle, or has a node on no cycle
(the code's gate checks finiteness of all `n²` distance entries,
including diagonals); and on every nonempty strongly connected,
cycle-covered, negative-cycle-free graph the balancing step succeeds and
`solve` returns a walk for every successor-list iteration order
consistent with the balanced graph. -/
theorem solve_gate_characterisation (g : Graph) (hwf : MatWf g.W)
    (hcons : ∀ i, g.outDeg i = outC g i) (ord : Ord) :
    ((solveS (newSolver g) ord).1 = SolveResult.noSolution ↔
      ¬ StronglyConnected g.W ∨ HasNegCycle g.W ∨
        ¬ ∀ i, NodeOnCycle g.W i) ∧
    (0 < g.n → StronglyConnected g.W → ¬ HasNegCycle g.W →
      (∀ i, NodeOnCycle g.W i) →
      ∃ s1, balanceNode (newSolver g) = some s1 ∧
        ∀ ord2 : Ord, ordWf s1.graph ord2 →
          ∃ p : PathR,
            solveS (newSolver g) ord2 = (SolveResult.walk p, s1)) := by
  constructor
  · rw [solveS_noSolution_iff, Bool.eq_false_iff, Ne, solvable_iff hwf]
    tauto
  · intro h0 hsc hnoneg hcyc
    have hdiag : ∀ a, ¬ EF.lt ((pass1 g.W).D a a) EF.zero := by
      intro a ha
      exact hnoneg ((negCycle_iff_neg_diag hwf).mpr ⟨a, ha⟩)
    have hflag : (fwNew g.W).flag = false := by
      cases hf : (fwNew g.W).flag with
      | false => rfl
      | true =>
        obtain ⟨a, ha⟩ := (flag_iff_neg_diag hwf).mp hf
        exact absurd ha (hdiag a)
    have hfin : ∀ i j : Fin g.n, (pass1 g.W).D i j ≠ EF.pinf :=
      (allFinite_iff hwf hdiag).mpr ⟨hsc, hcyc⟩
    have hsv : solvable (newSolver g) = true :=
      (solvable_iff hwf).mpr ⟨hsc, hcyc, hnoneg⟩
    obtain ⟨s1, hb⟩ := balanceNode_some (newSolver g) hwf
      ((pass2_flag_false_state _ hflag).2) hdiag hfin
    refine ⟨s1, hb, ?_⟩
    intro ord2 hord2
    have hpres := balanceNode_pres
      (fun gr => gr.n = g.n ∧ ∀ i, gr.outDeg i = outC gr i)
      (fun gr f t w hg => ⟨hg.1, addGraphEdge_outDeg gr f t w hg.2⟩)
      hb ⟨rfl, hcons⟩
    have h0' : 0 < s1.graph.n := by
      rw [hpres.1]
      exact h0
    obtain ⟨pathL, hr⟩ := hierRun_some s1.graph h0' ord2 hord2 hpres.2
    refine ⟨mkPath s1.graph.W pathL s1.graph.labels, ?_⟩
    simp [solveS, hsv, hb, hr]

/-- Witness for C2 at the concrete two-cycle graph with its canonical
successor order. -/
theorem solve_gate_characterisation_witness :
    MatWf twoCycleG.W ∧ (∀ i, twoCycleG.outDeg i = outC twoCycleG i) ∧
      (((solveS (newSolver twoCycleG) (canonOrd twoCycleG)).1 =
          SolveResult.noSolution ↔
        ¬ StronglyConnected twoCycleG.W ∨ HasNegCycle twoCycleG.W ∨
          ¬ ∀ i, NodeOnCycle twoCycleG.W i) ∧
      (0 < twoCycleG.n → StronglyConnected twoCycleG.W →
        ¬ HasNegCycle twoCycleG.W → (∀ i, NodeOnCycle twoCycleG.W i) →
        ∃ s1, balanceNode (newSolver twoCycleG) = some s1 ∧
          ∀ ord2 : Ord, ordWf s1.graph ord2 →
            ∃ p : PathR,
              solveS (newSolver twoCycleG) ord2 =
                (SolveResult.walk p, s1))) :=
  ⟨by decide, by decide,
    solve_gate_characterisation twoCycleG (by decide) (by decide)
      (canonOrd twoCycleG)⟩

/-- The builder calls of a solvable graph in which node `0` is short two
out-edges and node `1` has two out-edges too many. -/
def multiImbalanceCalls : List BCall :=
  [BCall.edge 0 1 (EF.fin 1), BCall.edge 1 0 (EF.fin 1),
   BCall.edge 1 2 (EF.fin 1), BCall.edge 1 3 (EF.fin 1),
   BCall.edge 2 0 (EF.fin 1), BCall.edge 3 0 (EF.fin 1)]

/-- The built graph of `multiImbalanceCalls`. -/
def multiImbalanceG : Graph :=
  ((buildFrom multiImbalanceCalls).build).getD emptyGraph

/-- Whether every node's out-degree (by edge counts) equals its
in-degree after `balance_node`; `none` when balancing crashes. -/
def balancedAfter (s : Solver) : Option Bool :=
  (balanceNode s).map fun s1 =>
    decide (∀ i : Fin s1.graph.n, outC s1.graph i = inC s1.graph i)

/-- C1: on the solvable four-node graph with edges `(0,1)`, `(1,0)`,
`(1,2)`, `(1,3)`, `(2,0)`, `(3,0)` (all weight 1) node `0` appears twice
in the deficit multiset, but `best_match` keys its result map by node, so
the second matched pair overwrites the first and only one shortest path
is duplicated: after `balance_node` the graph still has a node with
out-degree unequal to in-degree, contradicting the claimed
post-condition `out[i] = in[i]` for all `i`. -/
theorem balance_node_misses_multi_unit_imbalance :
    solvable (newSolver multiImbalanceG) = true ∧
      balancedAfter (newSolver multiImbalanceG) = some false := by
  decide

end CppSolver
